import Mathlib

/-!
# utreexo: leaf codec, frame codec, block deduplication and slice compaction

A shallow embedding of

* `cmd/util/types.go`  : `LeafData`, `LeafDataFromBytes`, `LeafData.ToBytes`,
                         `LeafData.LeafHash`
* `util/utils.go`      : `PrefixLen16`, `PopPrefixLen16`, `DedupeBlock`,
                         `BlockToDelOPs`, `sortUint32s`, `IsUnspendable`
* `cmd/clair/lookbehind_test.go` : the two deletion procedures of `TestSliceDelete`

Conventions.  A Go `byte` is a natural number (a byte sequence is a `List Nat`,
`IsBytes` says that every element is below 256); `uint16`/`uint32` are naturals
reduced `% 2^16` / `% 2^32` where the code converts or increments; `int32`/`int64`
are integers in their two's complement range; Go `int` (64 bit) is `Int`.
A function that returns an `error` or that can panic on a slice expression
returns an `Option`.
-/

namespace Utreexo

/-! ## Bytes and big-endian integers -/

/-- Every element of the sequence is a byte value. -/
def IsBytes (b : List Nat) : Prop := ∀ x ∈ b, x < 256

instance (b : List Nat) : Decidable (IsBytes b) := by
  unfold IsBytes; infer_instance

/-- The Go slice expression `b[lo:hi]` on a sequence, for `lo ≤ hi ≤ len(b)`. -/
def slice {α : Type} (b : List α) (lo hi : Nat) : List α := (b.drop lo).take (hi - lo)

/-- The `n` big-endian bytes of `v` (`binary.Write(.., binary.BigEndian, v)` for an
unsigned `v` of `n` bytes). -/
def putBE : Nat → Nat → List Nat
  | 0, _ => []
  | n + 1, v => putBE n (v / 256) ++ [v % 256]

/-- The unsigned integer whose big-endian bytes are `b`
(`binary.Read(.., binary.BigEndian, &v)`). -/
def getBE (b : List Nat) : Nat := b.foldl (fun acc x => acc * 256 + x) 0

/-- Modelled from the spec: `U32tB` is called by `ToBytes` but is not among the
sources; the leaf wire format gives the output index as `output-index-BE32(4)`. -/
def U32tB (i : Nat) : List Nat := putBE 4 (i % 2 ^ 32)

/-- Modelled from the spec: `BtU32` is called by `LeafDataFromBytes` but is not among
the sources; it reads the 4 big-endian bytes of the output index. -/
def BtU32 (b : List Nat) : Nat := getBE b

/-- Modelled from the spec: `I32tB` is not among the sources; the wire format gives
the coinbase height as `coinbase-height-BE32(4)`, a signed 32-bit value written in
two's complement. -/
def I32tB (i : Int) : List Nat := putBE 4 (i % 2 ^ 32).toNat

/-- Modelled from the spec: `BtI32` is not among the sources; it reads 4 big-endian
bytes as a signed 32-bit value (two's complement). -/
def BtI32 (b : List Nat) : Int :=
  if getBE b < 2 ^ 31 then (getBE b : Int) else (getBE b : Int) - 2 ^ 32

/-- Modelled from the spec: `I64tB` is not among the sources; the wire format gives
the amount as `amount-BE64(8)`, a signed 64-bit value written in two's complement. -/
def I64tB (i : Int) : List Nat := putBE 8 (i % 2 ^ 64).toNat

/-- Modelled from the spec: `BtI64` is not among the sources; it reads 8 big-endian
bytes as a signed 64-bit value (two's complement). -/
def BtI64 (b : List Nat) : Int :=
  if getBE b < 2 ^ 63 then (getBE b : Int) else (getBE b : Int) - 2 ^ 64

/-! ## `cmd/util/types.go` -/

/-- `wire.OutPoint`: a transaction hash (`[32]byte`) and an output index (`uint32`). -/
structure OutPoint where
  Hash : List Nat
  Index : Nat
deriving DecidableEq, Repr

/-- `LeafData` is all the data that goes into a leaf of the accumulator. -/
structure LeafData where
  BlockHash : List Nat
  Outpoint : OutPoint
  CbHeight : Int
  Amt : Int
  ScriptPubkey : List Nat
deriving DecidableEq, Repr

/-- The invariants that the Go types of the fields of a `LeafData` give:
`[32]byte` hashes, a `uint32` index, an `int32` height, an `int64` amount and a
`[]byte` script. -/
def LeafData.WF (l : LeafData) : Prop :=
  l.BlockHash.length = 32 ∧ IsBytes l.BlockHash ∧
  l.Outpoint.Hash.length = 32 ∧ IsBytes l.Outpoint.Hash ∧
  l.Outpoint.Index < 2 ^ 32 ∧
  (-2 ^ 31 ≤ l.CbHeight ∧ l.CbHeight < 2 ^ 31) ∧
  (-2 ^ 63 ≤ l.Amt ∧ l.Amt < 2 ^ 63) ∧
  IsBytes l.ScriptPubkey

instance (l : LeafData) : Decidable l.WF := by
  unfold LeafData.WF; infer_instance

/-- `LeafDataFromBytes`: `none` is the error return. -/
def LeafDataFromBytes (b : List Nat) : Option LeafData :=
  if b.length < 80 then none
  else some
    { BlockHash := slice b 0 32
      Outpoint := { Hash := slice b 32 64, Index := BtU32 (slice b 64 68) }
      CbHeight := BtI32 (slice b 68 72)
      Amt := BtI64 (slice b 72 80)
      ScriptPubkey := b.drop 80 }

/-- `LeafData.ToBytes`: turn a `LeafData` into bytes. -/
def LeafData.ToBytes (l : LeafData) : List Nat :=
  let b := l.BlockHash ++ l.Outpoint.Hash
  let b := b ++ U32tB l.Outpoint.Index
  let b := b ++ I32tB l.CbHeight
  let b := b ++ I64tB l.Amt
  let b := b ++ l.ScriptPubkey
  b

/-! ## `util/utils.go`: length-prefixed frames -/

/-- `PrefixLen16` puts a 2 byte length prefix in front of a byte slice;
`l := uint16(len(b))` truncates the length to 16 bits. -/
def PrefixLen16 (b : List Nat) : List Nat :=
  let l := b.length % 2 ^ 16
  putBE 2 l ++ b

/-- `PopPrefixLen16`: `none` is either error return, `some (payload[:l], payload[l:])`
the success return. -/
def PopPrefixLen16 (b : List Nat) : Option (List Nat × List Nat) :=
  if b.length < 2 then none
  else
    let pfx := b.take 2
    let payload := b.drop 2
    let l := getBE pfx
    if l > payload.length then none
    else some (payload.take l, payload.drop l)

/-! ## `cmd/clair/lookbehind_test.go`: the two deletion procedures of `TestSliceDelete`

A slice is modelled by its visible elements.  `cacheSlice2` keeps length and capacity
`cacheLen` until the final truncation.  `cacheSlice1` shrinks by one at every `append`,
which writes in place; a deletion that does not panic has `k + 1 ≤ len`, so the
elements between length and capacity never become visible.  Positions and cursors are
Go `int`s, modelled as `Int`; an out-of-range slice expression (a panic) is `none`. -/

/-- Go `copy(s[w:], src)` for `w ≤ len(s)`: the first `min(len(s) - w, len(src))`
elements of `src` overwrite `s` from index `w` on; `src` holds the values read before
any write (the built-in `copy` handles overlapping slices). -/
def copyAt {α : Type} (s : List α) (w : Nat) (src : List α) : List α :=
  s.take w ++ src.take (s.length - w) ++ s.drop (w + min src.length (s.length - w))

/-- `copy(s[w:], s[lo:hi])` on a slice whose capacity is its length: `none` when one of
the two slice expressions is out of range. -/
def copyWithin {α : Type} (s : List α) (w lo hi : Int) : Option (List α) :=
  if 0 ≤ w ∧ w ≤ s.length ∧ 0 ≤ lo ∧ lo ≤ hi ∧ hi ≤ s.length then
    some (copyAt s w.toNat (slice s lo.toNat hi.toNat))
  else none

/-- One deletion of the first procedure:
`s = append(s[:k], s[k+1:]...)`; `none` when `s[k+1:]` or `s[:k]` is out of range. -/
def deleteOne {α : Type} (s : List α) (k : Int) : Option (List α) :=
  if 0 ≤ k ∧ k + 1 ≤ s.length then some (s.take k.toNat ++ s.drop (k.toNat + 1))
  else none

/-- The loop of lines 38-41: `for z, deletePosition := range deletions`, deleting at
index `deletePosition - z`. -/
def deleteLoop {α : Type} : List α → Nat → List Int → Option (List α)
  | s, _, [] => some s
  | s, z, deletePosition :: ds =>
    match deleteOne s (deletePosition - z) with
    | none => none
    | some s' => deleteLoop s' (z + 1) ds

/-- The first deletion procedure of `TestSliceDelete` (one element at a time). -/
def deleteOneByOne {α : Type} (cacheSlice1 : List α) (deletions : List Int) :
    Option (List α) :=
  deleteLoop cacheSlice1 0 deletions

/-- The loop of lines 44-57: the state is the slice and `prevPos`, `z` is the ordinal
of the deletion. -/
def compactLoop {α : Type} : List α → Int → Nat → List Int → Option (List α × Int)
  | s, prevPos, _, [] => some (s, prevPos)
  | s, prevPos, z, deletePosition :: ds =>
    match (if prevPos = 0 then copyWithin s 0 0 deletePosition
           else copyWithin s (prevPos - z) prevPos deletePosition) with
    | none => none
    | some s' => compactLoop s' (deletePosition + 1) (z + 1) ds

/-- The second deletion procedure of `TestSliceDelete` (lines 44-61): the `prevPos` loop,
the final `copy` and the truncation to `cacheLen - len(deletions)`, where `cacheLen` is
the length the slice was made with. -/
def compactBatched {α : Type} (cacheSlice2 : List α) (deletions : List Int) :
    Option (List α) :=
  let cacheLen : Int := cacheSlice2.length
  match compactLoop cacheSlice2 0 0 deletions with
  | none => none
  | some (s, prevPos) =>
    match copyWithin s (prevPos - deletions.length) prevPos s.length with
    | none => none
    | some s' =>
      if 0 ≤ cacheLen - deletions.length ∧ cacheLen - deletions.length ≤ s'.length then
        some (s'.take (cacheLen - deletions.length).toNat)
      else none

/-- The survivors of `a` from position `prev` on, when the positions `ps` (ascending,
all at or after `prev`) are deleted: the runs between consecutive deleted positions
followed by the tail after the last one.  Used to relate the two procedures. -/
def keepRuns {α : Type} (a : List α) : Nat → List Nat → List α
  | prev, [] => a.drop prev
  | prev, p :: ps => slice a prev p ++ keepRuns a (p + 1) ps

/-! ## `util/utils.go`: `DedupeBlock` and `BlockToDelOPs`

A block is the list `blk.Transactions()`; a transaction carries the hash that
`tx.Hash()` returns (computed outside this repository), its inputs and its outputs.
The `uint32` counters wrap modulo `2^32`, as `u32` makes explicit. -/

/-- `wire.TxIn`, of which the code reads `PreviousOutPoint` only. -/
structure TxIn where
  PreviousOutPoint : OutPoint
deriving DecidableEq, Repr

/-- `wire.TxOut`. -/
structure TxOut where
  Value : Int
  PkScript : List Nat
deriving DecidableEq, Repr

/-- `btcutil.Tx`: `Hash` is the value of `tx.Hash()`, `TxIn` and `TxOut` are
`tx.MsgTx().TxIn` and `tx.MsgTx().TxOut`. -/
structure Tx where
  Hash : List Nat
  TxIn : List TxIn
  TxOut : List TxOut
deriving DecidableEq, Repr

/-- Conversion to, and arithmetic in, `uint32`. -/
def u32 (n : Nat) : Nat := n % 2 ^ 32

/-- `map[wire.OutPoint]uint32`. -/
abbrev InMap := OutPoint → Option Nat

/-- `make(map[wire.OutPoint]uint32)`. -/
def InMap.empty : InMap := fun _ => none

/-- `inmap[k] = v`: an insert, or an overwrite when the key is present. -/
def InMap.set (inmap : InMap) (k : OutPoint) (v : Nat) : InMap :=
  fun k' => if k' = k then some v else inmap k'

/-- First pass of `DedupeBlock`, inner loop over the inputs of one transaction:
`inmap[in.PreviousOutPoint] = i; i++`. -/
def inmapInputs : List TxIn → InMap → Nat → InMap × Nat
  | [], inmap, i => (inmap, i)
  | x :: rest, inmap, i =>
    inmapInputs rest (inmap.set x.PreviousOutPoint i) (u32 (i + 1))

/-- First pass of `DedupeBlock`, outer loop `for coinbase, tx := range ...`: the
transaction at index 0 only advances the counter. -/
def inmapTxs : List Tx → Nat → InMap → Nat → InMap × Nat
  | [], _, inmap, i => (inmap, i)
  | tx :: txs, coinbase, inmap, i =>
    if coinbase = 0 then
      inmapTxs txs (coinbase + 1) inmap (u32 (i + u32 tx.TxIn.length))
    else
      let r := inmapInputs tx.TxIn inmap i
      inmapTxs txs (coinbase + 1) r.1 r.2

/-- Second pass of `DedupeBlock`, inner loop `for outidx, _ := range txOut`: probe the
map with `wire.OutPoint{Hash: *tx.Hash(), Index: uint32(outidx)}` and on a hit append
to both skip lists. -/
def skipOutputs (inmap : InMap) (txHash : List Nat) :
    List TxOut → Nat → Nat → List Nat → List Nat → Nat × List Nat × List Nat
  | [], _, i, inskip, outskip => (i, inskip, outskip)
  | _ :: rest, outidx, i, inskip, outskip =>
    match inmap ⟨txHash, u32 outidx⟩ with
    | some inpos =>
      skipOutputs inmap txHash rest (outidx + 1) (u32 (i + 1)) (inskip ++ [inpos])
        (outskip ++ [i])
    | none => skipOutputs inmap txHash rest (outidx + 1) (u32 (i + 1)) inskip outskip

/-- Second pass of `DedupeBlock`, outer loop. -/
def skipTxs (inmap : InMap) :
    List Tx → Nat → Nat → List Nat → List Nat → Nat × List Nat × List Nat
  | [], _, i, inskip, outskip => (i, inskip, outskip)
  | tx :: txs, coinbase, i, inskip, outskip =>
    if coinbase = 0 then
      skipTxs inmap txs (coinbase + 1) (u32 (i + u32 tx.TxOut.length)) inskip outskip
    else
      let r := skipOutputs inmap tx.Hash tx.TxOut 0 i inskip outskip
      skipTxs inmap txs (coinbase + 1) r.1 r.2.1 r.2.2

/-- `sortUint32s`: `sort.Slice` with `s[a] < s[b]` leaves the ascending rearrangement
of the values. -/
def sortUint32s (s : List Nat) : List Nat := s.insertionSort (· ≤ ·)

/-- The four results of `DedupeBlock`. -/
structure DedupeResult where
  inCount : Nat
  outCount : Nat
  inskip : List Nat
  outskip : List Nat
deriving DecidableEq, Repr

/-- The skip lists of `DedupeBlock` as the second pass leaves them, before `inskip`
is sorted. -/
def dedupePasses (blk : List Tx) : DedupeResult :=
  let r1 := inmapTxs blk 0 InMap.empty 0
  let r2 := skipTxs r1.1 blk 0 0 [] []
  ⟨r1.2, r2.1, r2.2.1, r2.2.2⟩

/-- `DedupeBlock`. -/
def DedupeBlock (blk : List Tx) : DedupeResult :=
  let r := dedupePasses blk
  ⟨r.inCount, r.outCount, sortUint32s r.inskip, r.outskip⟩

/-- `BlockToDelOPs`, inner loop over the inputs of one transaction; the state is the
rest of `inskip`, `blockInIdx` and `delOPs`. -/
def delInputs : List TxIn → List Nat → Nat → List OutPoint → List Nat × Nat × List OutPoint
  | [], inskip, blockInIdx, delOPs => (inskip, blockInIdx, delOPs)
  | txin :: rest, inskip, blockInIdx, delOPs =>
    match inskip with
    | s :: inskip' =>
      if s = blockInIdx then delInputs rest inskip' (u32 (blockInIdx + 1)) delOPs
      else delInputs rest inskip (u32 (blockInIdx + 1)) (delOPs ++ [txin.PreviousOutPoint])
    | [] => delInputs rest inskip (u32 (blockInIdx + 1)) (delOPs ++ [txin.PreviousOutPoint])

/-- `BlockToDelOPs`, outer loop `for txinblock, tx := range transactions`. -/
def delTxs : List Tx → Nat → List Nat → Nat → List OutPoint → List Nat × Nat × List OutPoint
  | [], _, inskip, blockInIdx, delOPs => (inskip, blockInIdx, delOPs)
  | tx :: txs, txinblock, inskip, blockInIdx, delOPs =>
    if txinblock = 0 then
      delTxs txs (txinblock + 1) inskip (u32 (blockInIdx + u32 tx.TxIn.length)) delOPs
    else
      let r := delInputs tx.TxIn inskip blockInIdx delOPs
      delTxs txs (txinblock + 1) r.1 r.2.1 r.2.2

/-- `BlockToDelOPs`: `none` when `make([]wire.OutPoint, 0, inCount-len(inskip))` is
given a negative capacity and panics. -/
def BlockToDelOPs (blk : List Tx) : Option (List OutPoint) :=
  let r := DedupeBlock blk
  if (r.inCount : Int) - r.inskip.length < 0 then none
  else some (delTxs blk 0 r.inskip 0 []).2.2

/-! ### The flattened numbering of inputs and outputs -/

/-- All inputs of the block in block order, the coinbase included: the input with
flattened index `k` is the element at position `k`. -/
def blockInputs (blk : List Tx) : List TxIn := (blk.map (fun tx => tx.TxIn)).flatten

/-- The outpoints `(hash of the transaction, index within it)` of the outputs of one
transaction. -/
def txOutpoints (tx : Tx) : List OutPoint :=
  (List.range tx.TxOut.length).map (fun j => ⟨tx.Hash, j⟩)

/-- The outpoints of all outputs of the block in block order, the coinbase included:
the output with flattened index `k` has the outpoint at position `k`. -/
def blockOutpoints (blk : List Tx) : List OutPoint := (blk.map txOutpoints).flatten

/-- Number of inputs of the coinbase (transaction 0), 0 for a block without
transactions. -/
def coinbaseInCount (blk : List Tx) : Nat := ((blk.take 1).map (fun tx => tx.TxIn.length)).sum

/-- Number of outputs of the coinbase (transaction 0). -/
def coinbaseOutCount (blk : List Tx) : Nat :=
  ((blk.take 1).map (fun tx => tx.TxOut.length)).sum

/-! ### Example blocks -/

/-- A 32-byte hash all of whose bytes are `x`. -/
def hash32 (x : Nat) : List Nat := List.replicate 32 x

/-- A coinbase transaction: one input with the null outpoint, one output. -/
def exCoinbase : Tx := ⟨hash32 1, [⟨⟨hash32 0, 4294967295⟩⟩], [⟨50, []⟩]⟩

/-- A transaction with one input spending an outpoint of an earlier block and two
outputs. -/
def exTxA : Tx := ⟨hash32 2, [⟨⟨hash32 9, 0⟩⟩], [⟨10, []⟩, ⟨20, []⟩]⟩

/-- A transaction spending output 1 and then output 0 of `exTxA`. -/
def exTxB : Tx := ⟨hash32 3, [⟨⟨hash32 2, 1⟩⟩, ⟨⟨hash32 2, 0⟩⟩], [⟨30, []⟩]⟩

/-- A block in which `exTxB` spends both outputs of `exTxA`, the later one first. -/
def exBlock : List Tx := [exCoinbase, exTxA, exTxB]

/-- A transaction spending output 0 and then output 1 of `exTxA`. -/
def exTxC : Tx := ⟨hash32 4, [⟨⟨hash32 2, 0⟩⟩, ⟨⟨hash32 2, 1⟩⟩], [⟨30, []⟩]⟩

/-- A block that holds the transaction `exTxA` twice. -/
def exBlockDup : List Tx := [exCoinbase, exTxA, exTxA, exTxC]

/-! ### Closed forms of the two passes, used in the proofs -/

/-- Position in `ins` of the last input whose `PreviousOutPoint` is `op`. -/
def lastIdx (op : OutPoint) : List TxIn → Option Nat
  | [] => none
  | x :: rest =>
    match lastIdx op rest with
    | some j => some (j + 1)
    | none => if op = x.PreviousOutPoint then some 0 else none

/-- The hits of the probes `keys`, numbered from `i` on: the pairs (value found in the
map, number of the probe). -/
def hits (inmap : InMap) : List OutPoint → Nat → List (Nat × Nat)
  | [], _ => []
  | k :: ks, i =>
    match inmap k with
    | some inpos => (inpos, i) :: hits inmap ks (i + 1)
    | none => hits inmap ks (i + 1)

/-- The map that the first pass builds for a block: an outpoint is sent to the
flattened index of the last non-coinbase input that spends it. -/
def blockInmap (blk : List Tx) : InMap :=
  fun op => (lastIdx op (blockInputs blk.tail)).map (fun j => coinbaseInCount blk + j)

/-- The hits of the second pass on a block. -/
def blockHits (blk : List Tx) : List (Nat × Nat) :=
  hits (blockInmap blk) (blockOutpoints blk.tail) (coinbaseOutCount blk)

/-- The `PreviousOutPoint` of the input with flattened index `k`, if there is one. -/
def spentAt (blk : List Tx) (k : Nat) : Option OutPoint :=
  ((blockInputs blk)[k]?).map TxIn.PreviousOutPoint

/-- The outpoint of the output with flattened index `o`, if there is one. -/
def createdAt (blk : List Tx) (o : Nat) : Option OutPoint := (blockOutpoints blk)[o]?

/-- Position by position, `outs[k]` is the flattened index of an output whose outpoint
is the `PreviousOutPoint` of the input with flattened index `ins[k]`, and the two
lists have the same length. -/
def Paired (blk : List Tx) (ins outs : List Nat) : Prop :=
  ins.length = outs.length ∧
  ∀ p ∈ ins.zip outs, (createdAt blk p.2).isSome = true ∧ createdAt blk p.2 = spentAt blk p.1

instance (blk : List Tx) (ins outs : List Nat) : Decidable (Paired blk ins outs) := by
  unfold Paired; infer_instance

/-! ## Leaf hash and spendability -/

/-- `LeafData.LeafHash`: `sha256.Sum256(l.ToBytes())`; the hash function of the Go
standard library is a parameter. -/
def LeafData.LeafHash (sha256 : List Nat → List Nat) (l : LeafData) : List Nat :=
  sha256 l.ToBytes

/-- `IsUnspendable` determines whether a transaction output is unspendable: a script
longer than 10000 bytes, or a script that starts with `OP_RETURN` (`0x6a`). -/
def IsUnspendable (o : TxOut) : Bool :=
  if o.PkScript.length > 10000 then true
  else if o.PkScript.length > 0 ∧ o.PkScript[0]? = some 0x6a then true
  else false

/-! ### The batched compaction with element-by-element copies

A second version of the batched compaction in which every `copy` is carried out as a
front-to-back loop over the same array, `for i := 0; i < n; i++ { s[w+i] = s[r+i] }`,
to be compared with `compactBatched`. -/

/-- The loop `for i := 0; i < n; i++ { s[w+i] = s[r+i] }` on one array: each read sees
the writes made before it. -/
def copyFwd {α : Type} : List α → Nat → Nat → Nat → List α
  | s, _, _, 0 => s
  | s, w, r, n + 1 =>
    match s[r]? with
    | some x => copyFwd (s.set w x) (w + 1) (r + 1) n
    | none => s

/-- `copy(s[w:], s[lo:hi])` carried out by `copyFwd` on `min(len(s) - w, hi - lo)`
elements, with the slice bounds checks of `copyWithin`. -/
def copyWithinFwd {α : Type} (s : List α) (w lo hi : Int) : Option (List α) :=
  if 0 ≤ w ∧ w ≤ s.length ∧ 0 ≤ lo ∧ lo ≤ hi ∧ hi ≤ s.length then
    some (copyFwd s w.toNat lo.toNat (min (hi - lo).toNat (s.length - w.toNat)))
  else none

/-- The `prevPos` loop with element-by-element copies. -/
def compactLoopFwd {α : Type} : List α → Int → Nat → List Int → Option (List α × Int)
  | s, prevPos, _, [] => some (s, prevPos)
  | s, prevPos, z, deletePosition :: ds =>
    match (if prevPos = 0 then copyWithinFwd s 0 0 deletePosition
           else copyWithinFwd s (prevPos - z) prevPos deletePosition) with
    | none => none
    | some s' => compactLoopFwd s' (deletePosition + 1) (z + 1) ds

/-- The batched compaction with element-by-element copies. -/
def compactBatchedFwd {α : Type} (cacheSlice2 : List α) (deletions : List Int) :
    Option (List α) :=
  let cacheLen : Int := cacheSlice2.length
  match compactLoopFwd cacheSlice2 0 0 deletions with
  | none => none
  | some (s, prevPos) =>
    match copyWithinFwd s (prevPos - deletions.length) prevPos s.length with
    | none => none
    | some s' =>
      if 0 ≤ cacheLen - deletions.length ∧ cacheLen - deletions.length ≤ s'.length then
        some (s'.take (cacheLen - deletions.length).toNat)
      else none

/-- The write index and the read index at which each copy of the batched compaction
starts, in the order of the copies: one pair for every deletion (`prevPos - z` and
`prevPos`, or `0` and `0` on the `prevPos == 0` branch) and a last pair for the final
copy (`prevPos - len(deletions)` and `prevPos`). -/
def compactCursors : Int → Nat → List Int → List (Int × Int)
  | prevPos, z, [] => [(prevPos - z, prevPos)]
  | prevPos, z, deletePosition :: ds =>
    (if prevPos = 0 then (0, 0) else (prevPos - z, prevPos))
      :: compactCursors (deletePosition + 1) (z + 1) ds

/-- A transaction spending output 0 of `exTxA`. -/
def exTxD : Tx := ⟨hash32 5, [⟨⟨hash32 2, 0⟩⟩], [⟨5, []⟩]⟩

/-- Another transaction spending output 0 of `exTxA`. -/
def exTxE : Tx := ⟨hash32 6, [⟨⟨hash32 2, 0⟩⟩], [⟨5, []⟩]⟩

/-- A block in which output 0 of `exTxA` is spent by two different inputs, the input
of `exTxD` (flattened index 2) and the input of `exTxE` (flattened index 3). -/
def exBlockSpentTwice : List Tx := [exCoinbase, exTxA, exTxD, exTxE]

/-- The copies `copy(s[w:], s[r:hi])` for the given start indexes `(w, r)` and end
indexes `hi`, one after the other. -/
def runCopies {α : Type} : List α → List (Int × Int) → List Int → Option (List α)
  | s, c :: cs, hi :: his =>
    match copyWithin s c.1 c.2 hi with
    | none => none
    | some s' => runCopies s' cs his
  | s, _, _ => some s

/-! ## Lemmas: big-endian integers -/

theorem getBE_append_singleton (b : List Nat) (x : Nat) :
    getBE (b ++ [x]) = getBE b * 256 + x := by
  simp [getBE, List.foldl_append]

theorem length_putBE (n v : Nat) : (putBE n v).length = n := by
  induction n generalizing v with
  | zero => rfl
  | succ n ih => simp [putBE, ih]

theorem getBE_putBE (n v : Nat) : getBE (putBE n v) = v % 256 ^ n := by
  induction n generalizing v with
  | zero => simp [putBE, getBE, Nat.mod_one]
  | succ n ih =>
    rw [putBE, getBE_append_singleton, ih, pow_succ, Nat.mul_comm (256 ^ n) 256,
      Nat.mod_mul]
    omega

theorem isBytes_putBE (n v : Nat) : IsBytes (putBE n v) := by
  induction n generalizing v with
  | zero => intro x hx; simp [putBE] at hx
  | succ n ih =>
    intro x hx
    simp only [putBE, List.mem_append, List.mem_singleton] at hx
    rcases hx with hx | hx
    · exact ih _ x hx
    · omega

theorem BtU32_U32tB (i : Nat) (h : i < 2 ^ 32) : BtU32 (U32tB i) = i := by
  unfold BtU32 U32tB
  rw [getBE_putBE]
  omega

theorem BtI32_I32tB (i : Int) (h1 : -2 ^ 31 ≤ i) (h2 : i < 2 ^ 31) :
    BtI32 (I32tB i) = i := by
  unfold BtI32 I32tB
  rw [getBE_putBE]
  have e : ((256 : Nat) ^ 4) = 2 ^ 32 := by norm_num
  rw [e]
  have hnn : (0 : Int) ≤ i % 2 ^ 32 := Int.emod_nonneg _ (by norm_num)
  have hlt : i % 2 ^ 32 < 2 ^ 32 := Int.emod_lt_of_pos _ (by norm_num)
  have hm : ((i % 2 ^ 32).toNat % 2 ^ 32 : Nat) = (i % 2 ^ 32).toNat := by
    apply Nat.mod_eq_of_lt; omega
  rw [hm]
  split <;> omega

theorem BtI64_I64tB (i : Int) (h1 : -2 ^ 63 ≤ i) (h2 : i < 2 ^ 63) :
    BtI64 (I64tB i) = i := by
  unfold BtI64 I64tB
  rw [getBE_putBE]
  have e : ((256 : Nat) ^ 8) = 2 ^ 64 := by norm_num
  rw [e]
  have hnn : (0 : Int) ≤ i % 2 ^ 64 := Int.emod_nonneg _ (by norm_num)
  have hlt : i % 2 ^ 64 < 2 ^ 64 := Int.emod_lt_of_pos _ (by norm_num)
  have hm : ((i % 2 ^ 64).toNat % 2 ^ 64 : Nat) = (i % 2 ^ 64).toNat := by
    apply Nat.mod_eq_of_lt; omega
  rw [hm]
  split <;> omega

/-! ## Lemmas: slices of a concatenation -/

theorem slice_append_mid {α : Type} (p a r : List α) (lo hi : Nat)
    (h1 : p.length = lo) (h2 : a.length = hi - lo) :
    slice (p ++ (a ++ r)) lo hi = a := by
  unfold slice
  rw [List.drop_left' h1, List.take_left' h2]

theorem slice_append_zero {α : Type} (a r : List α) (hi : Nat) (h2 : a.length = hi) :
    slice (a ++ r) 0 hi = a := by
  unfold slice
  rw [List.drop_zero, Nat.sub_zero, List.take_left' h2]

theorem slice_append_slice_append_drop {α : Type} (b : List α) (m n : Nat) (h : m ≤ n) :
    b.take m ++ slice b m n ++ b.drop n = b := by
  unfold slice
  have e : List.drop n b = List.drop (n - m) (List.drop m b) := by
    rw [List.drop_drop]; congr 1; omega
  rw [e, List.append_assoc, List.take_append_drop, List.take_append_drop]

/-! ## The leaf codec -/

theorem length_ToBytes (l : LeafData) (h : l.WF) :
    l.ToBytes.length = 80 + l.ScriptPubkey.length := by
  obtain ⟨h1, -, h2, -, -⟩ := h
  simp only [LeafData.ToBytes, U32tB, I32tB, I64tB, List.length_append, length_putBE, h1, h2]

/-- Decoding after encoding is the identity on records in the range of the Go types. -/
theorem leafData_decode_encode (x : LeafData) (h : x.WF) :
    LeafDataFromBytes x.ToBytes = some x := by
  have hlen := length_ToBytes x h
  obtain ⟨h1, -, h2, -, h3, ⟨h4, h5⟩, ⟨h6, h7⟩, -⟩ := h
  obtain ⟨bh, ⟨oh, oi⟩, cb, amt, spk⟩ := x
  simp only at h1 h2 h3 h4 h5 h6 h7
  unfold LeafDataFromBytes
  rw [if_neg (by omega)]
  have e : (LeafData.mk bh ⟨oh, oi⟩ cb amt spk).ToBytes
      = bh ++ (oh ++ (U32tB oi ++ (I32tB cb ++ (I64tB amt ++ spk)))) := by
    simp [LeafData.ToBytes, List.append_assoc]
  have e1 : (LeafData.mk bh ⟨oh, oi⟩ cb amt spk).ToBytes
      = (bh ++ oh) ++ (U32tB oi ++ (I32tB cb ++ (I64tB amt ++ spk))) := by
    simp [LeafData.ToBytes, List.append_assoc]
  have e2 : (LeafData.mk bh ⟨oh, oi⟩ cb amt spk).ToBytes
      = (bh ++ oh ++ U32tB oi) ++ (I32tB cb ++ (I64tB amt ++ spk)) := by
    simp [LeafData.ToBytes, List.append_assoc]
  have e3 : (LeafData.mk bh ⟨oh, oi⟩ cb amt spk).ToBytes
      = (bh ++ oh ++ U32tB oi ++ I32tB cb) ++ (I64tB amt ++ spk) := by
    simp [LeafData.ToBytes, List.append_assoc]
  have e4 : (LeafData.mk bh ⟨oh, oi⟩ cb amt spk).ToBytes
      = (bh ++ oh ++ U32tB oi ++ I32tB cb ++ I64tB amt) ++ spk := by
    simp [LeafData.ToBytes, List.append_assoc]
  have s0 : slice (LeafData.mk bh ⟨oh, oi⟩ cb amt spk).ToBytes 0 32 = bh := by
    rw [e]; exact slice_append_zero _ _ _ h1
  have s1 : slice (LeafData.mk bh ⟨oh, oi⟩ cb amt spk).ToBytes 32 64 = oh := by
    rw [e]; exact slice_append_mid _ _ _ _ _ h1 (by omega)
  have s2 : slice (LeafData.mk bh ⟨oh, oi⟩ cb amt spk).ToBytes 64 68 = U32tB oi := by
    rw [e1]
    exact slice_append_mid _ _ _ _ _ (by simp [h1, h2]) (by simp [U32tB, length_putBE])
  have s3 : slice (LeafData.mk bh ⟨oh, oi⟩ cb amt spk).ToBytes 68 72 = I32tB cb := by
    rw [e2]
    exact slice_append_mid _ _ _ _ _ (by simp [h1, h2, U32tB, length_putBE])
      (by simp [I32tB, length_putBE])
  have s4 : slice (LeafData.mk bh ⟨oh, oi⟩ cb amt spk).ToBytes 72 80 = I64tB amt := by
    rw [e3]
    exact slice_append_mid _ _ _ _ _ (by simp [h1, h2, U32tB, I32tB, length_putBE])
      (by simp [I64tB, length_putBE])
  have s5 : (LeafData.mk bh ⟨oh, oi⟩ cb amt spk).ToBytes.drop 80 = spk := by
    rw [e4]
    exact List.drop_left' (by simp [h1, h2, U32tB, I32tB, I64tB, length_putBE])
  rw [s0, s1, s2, s3, s4, s5, BtU32_U32tB oi h3, BtI32_I32tB cb h4 h5, BtI64_I64tB amt h6 h7]

/-- C1. Decoding the encoding of a well-formed `LeafData` succeeds and gives the
record back, field by field (an empty script included). -/
theorem LeafDataFromBytes_ToBytes (x : LeafData) (h : x.WF) :
    LeafDataFromBytes x.ToBytes = some x :=
  leafData_decode_encode x h

/-- C1, at a record with a negative height and an empty script. -/
theorem LeafDataFromBytes_ToBytes_witness :
    (LeafData.mk (List.replicate 32 1) ⟨List.replicate 32 2, 7⟩ (-5) 1000 []).WF ∧
    LeafDataFromBytes
        (LeafData.mk (List.replicate 32 1) ⟨List.replicate 32 2, 7⟩ (-5) 1000 []).ToBytes
      = some (LeafData.mk (List.replicate 32 1) ⟨List.replicate 32 2, 7⟩ (-5) 1000 []) :=
  ⟨by decide, LeafDataFromBytes_ToBytes _ (by decide)⟩

/-- C9. `LeafDataFromBytes` fails exactly on inputs shorter than 80 bytes; on every
other input it succeeds and the script of the result is the input from offset 80 on. -/
theorem LeafDataFromBytes_error_iff (b : List Nat) :
    (LeafDataFromBytes b = none ↔ b.length < 80) ∧
    (80 ≤ b.length →
      ∃ l, LeafDataFromBytes b = some l ∧ l.ScriptPubkey = b.drop 80 ∧
        b.take 80 ++ l.ScriptPubkey = b) := by
  unfold LeafDataFromBytes
  refine ⟨?_, ?_⟩
  · by_cases h : b.length < 80 <;> simp [h]
  · intro h
    rw [if_neg (by omega)]
    exact ⟨_, rfl, rfl, List.take_append_drop 80 b⟩

/-! ## The frame codec -/

/-- C3. Popping a frame made by `PrefixLen16` from a payload of at most 65535 bytes,
followed by any further bytes, returns the payload and exactly those further bytes;
so popping walks a concatenation of frames one payload at a time. -/
theorem PopPrefixLen16_PrefixLen16 (x : List Nat) (hx : x.length ≤ 65535) :
    (∀ rest : List Nat, PopPrefixLen16 (PrefixLen16 x ++ rest) = some (x, rest)) ∧
    PopPrefixLen16 (PrefixLen16 x) = some (x, []) ∧
    (∀ xs : List (List Nat),
      PopPrefixLen16 ((List.map PrefixLen16 (x :: xs)).flatten)
        = some (x, (List.map PrefixLen16 xs).flatten)) := by
  have main : ∀ rest : List Nat, PopPrefixLen16 (PrefixLen16 x ++ rest) = some (x, rest) := by
    intro rest
    have hl : x.length % 2 ^ 16 = x.length := Nat.mod_eq_of_lt (by omega)
    have e : PrefixLen16 x ++ rest = putBE 2 x.length ++ (x ++ rest) := by
      unfold PrefixLen16
      simp only [hl, List.append_assoc]
    have ht : (putBE 2 x.length ++ (x ++ rest)).take 2 = putBE 2 x.length :=
      List.take_left' (length_putBE 2 _)
    have hd : (putBE 2 x.length ++ (x ++ rest)).drop 2 = x ++ rest :=
      List.drop_left' (length_putBE 2 _)
    have hg : getBE (putBE 2 x.length) = x.length := by
      rw [getBE_putBE]; exact Nat.mod_eq_of_lt (by norm_num; omega)
    unfold PopPrefixLen16
    rw [e, if_neg (by simp [length_putBE])]
    simp only [ht, hd, hg]
    rw [if_neg (by simp)]
    simp
  refine ⟨main, ?_, ?_⟩
  · simpa using main []
  · intro xs
    simpa using main (List.map PrefixLen16 xs).flatten

/-- C3, at the payload `[7, 8, 9]`. -/
theorem PopPrefixLen16_PrefixLen16_witness :
    PopPrefixLen16 (PrefixLen16 [7, 8, 9] ++ [1, 2]) = some ([7, 8, 9], [1, 2]) ∧
    ((∀ rest : List Nat,
        PopPrefixLen16 (PrefixLen16 [7, 8, 9] ++ rest) = some ([7, 8, 9], rest)) ∧
      PopPrefixLen16 (PrefixLen16 [7, 8, 9]) = some ([7, 8, 9], []) ∧
      (∀ xs : List (List Nat),
        PopPrefixLen16 ((List.map PrefixLen16 ([7, 8, 9] :: xs)).flatten)
          = some ([7, 8, 9], (List.map PrefixLen16 xs).flatten))) :=
  ⟨by decide, PopPrefixLen16_PrefixLen16 [7, 8, 9] (by decide)⟩

/-- C10. `PopPrefixLen16` fails exactly when fewer than 2 bytes are given or the
big-endian length `L` of the first two bytes exceeds the number of bytes after them;
otherwise it returns `b[2:2+L]` and `b[2+L:]`, and prefix, payload and rest make up `b`. -/
theorem PopPrefixLen16_error_iff (b : List Nat) :
    (PopPrefixLen16 b = none ↔
      b.length < 2 ∨ b.length - 2 < b.getD 0 0 * 256 + b.getD 1 0) ∧
    (¬ (b.length < 2 ∨ b.length - 2 < b.getD 0 0 * 256 + b.getD 1 0) →
      PopPrefixLen16 b
        = some (slice b 2 (2 + (b.getD 0 0 * 256 + b.getD 1 0)),
                b.drop (2 + (b.getD 0 0 * 256 + b.getD 1 0))) ∧
      b.take 2 ++ slice b 2 (2 + (b.getD 0 0 * 256 + b.getD 1 0))
        ++ b.drop (2 + (b.getD 0 0 * 256 + b.getD 1 0)) = b) := by
  match b with
  | [] => simp [PopPrefixLen16]
  | [_] => simp [PopPrefixLen16]
  | b0 :: b1 :: t =>
    have hg : getBE [b0, b1] = b0 * 256 + b1 := by simp [getBE]
    refine ⟨?_, ?_⟩
    · unfold PopPrefixLen16
      simp only [List.length_cons, List.take_succ_cons, List.take_zero, List.drop_succ_cons,
        List.drop_zero, hg, List.getD_cons_zero, List.getD_cons_succ]
      rw [if_neg (by omega)]
      by_cases h : b0 * 256 + b1 > t.length
      · simp [h]
      · simp [h]
    · intro h
      refine ⟨?_, ?_⟩
      · unfold PopPrefixLen16
        simp only [List.length_cons, List.take_succ_cons, List.take_zero, List.drop_succ_cons,
          List.drop_zero, hg, List.getD_cons_zero, List.getD_cons_succ] at h ⊢
        rw [if_neg (by omega), if_neg (by omega)]
        have e : 2 + (b0 * 256 + b1) = (b0 * 256 + b1) + 2 := by omega
        simp [slice, e]
      · exact slice_append_slice_append_drop _ 2 _ (by omega)

/-! ## The two deletion procedures of `TestSliceDelete` -/

theorem length_slice {α : Type} (b : List α) (lo hi : Nat) (h : hi ≤ b.length) :
    (slice b lo hi).length = hi - lo := by
  simp [slice]; omega

theorem copyAt_eq {α : Type} (s : List α) (w : Nat) (src : List α)
    (h : w + src.length ≤ s.length) :
    copyAt s w src = s.take w ++ src ++ s.drop (w + src.length) := by
  unfold copyAt
  have h1 : src.take (s.length - w) = src := List.take_of_length_le (by omega)
  have h2 : min src.length (s.length - w) = src.length := by omega
  rw [h1, h2]

theorem length_copyAt {α : Type} (s : List α) (w : Nat) (src : List α)
    (h : w + src.length ≤ s.length) : (copyAt s w src).length = s.length := by
  rw [copyAt_eq s w src h]
  simp; omega

theorem take_copyAt {α : Type} (s : List α) (w : Nat) (src : List α)
    (h : w + src.length ≤ s.length) :
    (copyAt s w src).take (w + src.length) = s.take w ++ src := by
  rw [copyAt_eq s w src h]
  apply List.take_left'
  simp; omega

theorem drop_copyAt {α : Type} (s : List α) (w : Nat) (src : List α) (q : Nat)
    (h : w + src.length ≤ s.length) (hq : w + src.length ≤ q) :
    (copyAt s w src).drop q = s.drop q := by
  rw [copyAt_eq s w src h]
  have e : q = (s.take w ++ src).length + (q - (w + src.length)) := by
    simp; omega
  conv_lhs => rw [e]
  rw [← List.drop_drop, List.drop_left, List.drop_drop]
  congr 1; omega

theorem slice_eq_of_drop_eq {α : Type} (s a : List α) (lo hi : Nat)
    (h : s.drop lo = a.drop lo) : slice s lo hi = slice a lo hi := by
  unfold slice; rw [h]

theorem drop_eq_of_drop_eq {α : Type} (s a : List α) (lo q : Nat) (hq : lo ≤ q)
    (h : s.drop lo = a.drop lo) : s.drop q = a.drop q := by
  have e : q = lo + (q - lo) := by omega
  rw [e, ← List.drop_drop, ← List.drop_drop, h]

/-- Invariant of the `prevPos` loop: the first `prevPos - z` cells hold the survivors
found so far and the cells from `prevPos` on are untouched. -/
theorem compactLoop_spec {α : Type} (a : List α) (ps : List Nat) :
    ∀ (s acc : List α) (prev z : Nat),
      s.length = a.length → z ≤ prev → prev ≤ a.length → (prev = 0 → z = 0) →
      s.take (prev - z) = acc → s.drop prev = a.drop prev →
      ps.Pairwise (· < ·) → (∀ p ∈ ps, prev ≤ p ∧ p < a.length) →
      ∃ (s' : List α) (prev' : Nat),
        compactLoop s (prev : Int) z (ps.map Int.ofNat) = some (s', (prev' : Int)) ∧
        s'.length = a.length ∧ z + ps.length ≤ prev' ∧ prev' ≤ a.length ∧
        s'.take (prev' - (z + ps.length)) ++ a.drop prev' = acc ++ keepRuns a prev ps ∧
        s'.drop prev' = a.drop prev' := by
  induction ps with
  | nil =>
    intro s acc prev z hl hz hp _ hacc hdrop _ _
    exact ⟨s, prev, rfl, hl, by simpa using hz, hp, by simp [keepRuns, hacc], hdrop⟩
  | cons p ps ih =>
    intro s acc prev z hl hz hp h0 hacc hdrop hpw hr
    have hpp := hr p (List.mem_cons_self _ _)
    have hsl : (slice s prev p).length = p - prev := length_slice s prev p (by omega)
    have hfit : (prev - z) + (slice s prev p).length ≤ s.length := by omega
    have hstep : (if (prev : Int) = 0 then copyWithin s 0 0 (Int.ofNat p)
           else copyWithin s ((prev : Int) - z) prev (Int.ofNat p))
        = some (copyAt s (prev - z) (slice s prev p)) := by
      by_cases hp0 : prev = 0
      · have hz0 := h0 hp0
        subst hp0; subst hz0
        simp only [Nat.cast_zero, if_true, copyWithin]
        rw [if_pos (by simp; omega)]
        simp
      · rw [if_neg (by omega)]
        unfold copyWithin
        rw [if_pos (by simp; omega)]
        have e1 : ((prev : Int) - z).toNat = prev - z := by omega
        simp [e1]
    obtain ⟨s', prev', hloop, hl', hz', hp', hres, hdrop'⟩ :=
      ih (copyAt s (prev - z) (slice s prev p)) (acc ++ slice a prev p) (p + 1) (z + 1)
        (by rw [length_copyAt s _ _ hfit, hl]) (by omega) (by omega) (by omega)
        (by
          have e : p + 1 - (z + 1) = (prev - z) + (slice s prev p).length := by omega
          rw [e, take_copyAt s _ _ hfit, hacc, slice_eq_of_drop_eq s a prev p hdrop])
        (by
          rw [drop_copyAt s _ _ (p + 1) hfit (by omega)]
          exact drop_eq_of_drop_eq s a prev (p + 1) (by omega) hdrop)
        (List.Pairwise.of_cons hpw)
        (by
          intro q hq
          have h1 := List.rel_of_pairwise_cons hpw hq
          have h2 := hr q (List.mem_cons_of_mem _ hq)
          omega)
    refine ⟨s', prev', ?_, hl', ?_, hp', ?_, hdrop'⟩
    · simp only [List.map_cons, compactLoop, hstep]
      have e : (Int.ofNat p + 1) = ((p + 1 : Nat) : Int) := by simp
      rw [e]
      exact hloop
    · simp only [List.length_cons]; omega
    · have e : z + (p :: ps).length = z + 1 + ps.length := by simp; omega
      rw [e, hres, keepRuns, List.append_assoc]

/-- The batched compaction returns the runs between the deleted positions. -/
theorem compactBatched_eq_keepRuns {α : Type} (a : List α) (d : List Nat)
    (hs : d.Pairwise (· < ·)) (hr : ∀ p ∈ d, p < a.length) :
    compactBatched a (d.map Int.ofNat) = some (keepRuns a 0 d) ∧
    (keepRuns a 0 d).length = a.length - d.length := by
  obtain ⟨s', prev', hloop, hl', hz', hp', hres, hdrop'⟩ :=
    compactLoop_spec a d a [] 0 0 rfl (le_refl _) (Nat.zero_le _) (fun _ => rfl)
      (by simp) rfl hs (fun p hp => ⟨Nat.zero_le _, hr p hp⟩)
  simp only [Nat.zero_add, List.nil_append] at hz' hres
  have hsl : slice s' prev' s'.length = a.drop prev' := by
    unfold slice
    rw [hdrop']
    apply List.take_of_length_le
    simp; omega
  have hfit : (prev' - d.length) + (slice s' prev' s'.length).length ≤ s'.length := by
    rw [hsl]; simp; omega
  have hlen : (keepRuns a 0 d).length = a.length - d.length := by
    rw [← hres]; simp; omega
  refine ⟨?_, hlen⟩
  unfold compactBatched
  simp only [Nat.cast_zero] at hloop
  simp only [hloop, List.length_map]
  have hcw : copyWithin s' ((prev' : Int) - d.length) prev' s'.length
      = some (copyAt s' (prev' - d.length) (slice s' prev' s'.length)) := by
    unfold copyWithin
    rw [if_pos (by simp; omega)]
    have e1 : ((prev' : Int) - d.length).toNat = prev' - d.length := by omega
    simp [e1]
  simp only [hcw]
  rw [if_pos (by rw [length_copyAt s' _ _ hfit]; omega)]
  have e2 : ((a.length : Int) - d.length).toNat
      = (prev' - d.length) + (slice s' prev' s'.length).length := by
    rw [hsl]; simp; omega
  rw [e2, take_copyAt s' _ _ hfit, hsl, hres]

/-- Invariant of the one-at-a-time loop: the slice is the survivors found so far
followed by the untouched tail of the original. -/
theorem deleteLoop_spec {α : Type} (a : List α) (ps : List Nat) :
    ∀ (acc : List α) (prev z : Nat),
      z ≤ prev → prev ≤ a.length → acc.length = prev - z →
      ps.Pairwise (· < ·) → (∀ p ∈ ps, prev ≤ p ∧ p < a.length) →
      deleteLoop (acc ++ a.drop prev) z (ps.map Int.ofNat)
        = some (acc ++ keepRuns a prev ps) := by
  induction ps with
  | nil => intro acc prev z _ _ _ _ _; rfl
  | cons p ps ih =>
    intro acc prev z hz hp hacc hpw hr
    have hpp := hr p (List.mem_cons_self _ _)
    have hk : (Int.ofNat p - (z : Int)).toNat = acc.length + (p - prev) := by
      simp only [Int.ofNat_eq_coe]; omega
    have hone : deleteOne (acc ++ a.drop prev) (Int.ofNat p - z)
        = some ((acc ++ slice a prev p) ++ a.drop (p + 1)) := by
      unfold deleteOne
      rw [if_pos (by simp; omega), hk]
      have e1 : (acc ++ a.drop prev).take (acc.length + (p - prev))
          = acc ++ slice a prev p := by
        rw [List.take_append]; rfl
      have e2 : (acc ++ a.drop prev).drop (acc.length + (p - prev) + 1)
          = a.drop (p + 1) := by
        rw [Nat.add_assoc, List.drop_append, List.drop_drop]
        congr 1; omega
      rw [e1, e2]
    simp only [List.map_cons, deleteLoop, hone, keepRuns]
    rw [ih (acc ++ slice a prev p) (p + 1) (z + 1) (by omega) (by omega)
      (by rw [List.length_append, length_slice a prev p (by omega)]; omega)
      (List.Pairwise.of_cons hpw)
      (by
        intro q hq
        have h1 := List.rel_of_pairwise_cons hpw hq
        have h2 := hr q (List.mem_cons_of_mem _ hq)
        omega)]
    rw [List.append_assoc]

theorem deleteOneByOne_eq_keepRuns {α : Type} (a : List α) (d : List Nat)
    (hs : d.Pairwise (· < ·)) (hr : ∀ p ∈ d, p < a.length) :
    deleteOneByOne a (d.map Int.ofNat) = some (keepRuns a 0 d) := by
  have h := deleteLoop_spec a d [] 0 0 (le_refl _) (Nat.zero_le _) rfl hs
    (fun p hp => ⟨Nat.zero_le _, hr p hp⟩)
  simpa [deleteOneByOne] using h


theorem filterMap_getElem?_range' {α : Type} (a : List α) (n : Nat) :
    ∀ lo : Nat, lo + n ≤ a.length →
      (List.range' lo n).filterMap (fun i => a[i]?) = (a.drop lo).take n := by
  induction n with
  | zero => intro lo _; simp
  | succ n ih =>
    intro lo h
    have hlo : lo < a.length := by omega
    rw [List.range'_succ, List.drop_eq_getElem_cons hlo, List.take_succ_cons,
      List.filterMap_cons, List.getElem?_eq_getElem hlo]
    simp only
    rw [ih (lo + 1) (by omega)]

/-- The runs between the deleted positions are the elements of `a`, in order, whose
position is not deleted. -/
theorem keepRuns_eq_filterMap {α : Type} (a : List α) (ps : List Nat) :
    ∀ prev : Nat, prev ≤ a.length →
      ps.Pairwise (· < ·) → (∀ p ∈ ps, prev ≤ p ∧ p < a.length) →
      keepRuns a prev ps
        = (List.range' prev (a.length - prev)).filterMap
            (fun i => if i ∈ ps then none else a[i]?) := by
  induction ps with
  | nil =>
    intro prev hp _ _
    simp only [keepRuns, List.not_mem_nil, if_false]
    rw [filterMap_getElem?_range' a _ prev (by omega)]
    exact (List.take_of_length_le (by simp)).symm
  | cons p ps ih =>
    intro prev hp hpw hr
    have hpp := hr p (List.mem_cons_self _ _)
    have hgt : ∀ q ∈ ps, p < q := fun q hq => List.rel_of_pairwise_cons hpw hq
    have e : a.length - prev = (p - prev) + (1 + (a.length - (p + 1))) := by omega
    have e2 : prev + (p - prev) = p := by omega
    have hsplit : List.range' prev (a.length - prev)
        = List.range' prev (p - prev)
          ++ (List.range' p 1 ++ List.range' (p + 1) (a.length - (p + 1))) := by
      have s1 := List.range'_append_1 prev (p - prev) (a.length - (p + 1) + 1)
      have s2 := List.range'_append_1 p 1 (a.length - (p + 1))
      rw [e2] at s1
      rw [s2, s1]
      congr 1
      omega
    rw [hsplit, List.filterMap_append, List.filterMap_append]
    have h1 : (List.range' prev (p - prev)).filterMap
          (fun i => if i ∈ p :: ps then none else a[i]?) = slice a prev p := by
      rw [List.filterMap_congr (g := fun i => a[i]?)]
      · exact filterMap_getElem?_range' a _ prev (by omega)
      · intro i hi
        rw [List.mem_range'_1] at hi
        have : i ∉ p :: ps := by
          intro hmem
          rcases List.mem_cons.mp hmem with h | h
          · omega
          · have := hgt i h; omega
        simp [this]
    have h2 : (List.range' p 1).filterMap
          (fun i => if i ∈ p :: ps then none else a[i]?) = [] := by
      simp
    have h3 : (List.range' (p + 1) (a.length - (p + 1))).filterMap
          (fun i => if i ∈ p :: ps then none else a[i]?)
        = (List.range' (p + 1) (a.length - (p + 1))).filterMap
          (fun i => if i ∈ ps then none else a[i]?) := by
      apply List.filterMap_congr
      intro i hi
      rw [List.mem_range'_1] at hi
      have : i ≠ p := by omega
      simp [this]
    rw [h1, h2, h3, keepRuns, List.nil_append,
      ih (p + 1) (by omega) (List.Pairwise.of_cons hpw)
        (by
          intro q hq
          have h1 := hgt q hq
          have h2 := hr q (List.mem_cons_of_mem _ hq)
          omega)]

/-- C2. On an array `a` and a strictly ascending list `d` of positions of `a`, the
batched copy compaction returns an array of length `len(a) - len(d)` that is `a` with
exactly the elements at the positions of `d` deleted and the others in their original
order; with no position it returns `a`, with all positions the empty array. -/
theorem compactBatched_correct {α : Type} (a : List α) (d : List Nat)
    (hs : d.Pairwise (· < ·)) (hr : ∀ p ∈ d, p < a.length) :
    ∃ r : List α,
      compactBatched a (d.map Int.ofNat) = some r ∧
      r.length = a.length - d.length ∧
      r = (List.range a.length).filterMap (fun i => if i ∈ d then none else a[i]?) ∧
      (d = [] → r = a) ∧
      (d.length = a.length → r = []) := by
  obtain ⟨h1, h2⟩ := compactBatched_eq_keepRuns a d hs hr
  refine ⟨keepRuns a 0 d, h1, h2, ?_, ?_, ?_⟩
  · rw [List.range_eq_range']
    exact keepRuns_eq_filterMap a d 0 (Nat.zero_le _) hs (fun p hp => ⟨Nat.zero_le _, hr p hp⟩)
  · intro hd
    subst hd
    simp [keepRuns]
  · intro hd
    apply List.eq_nil_of_length_eq_zero
    omega

/-- C2, at `a = [10,20,30,40,50]` and `d = [1,3]`: the result is `[10,30,50]`. -/
theorem compactBatched_correct_witness :
    compactBatched [10, 20, 30, 40, 50] ([1, 3].map Int.ofNat) = some [10, 30, 50] ∧
    ∃ r : List Nat,
      compactBatched [10, 20, 30, 40, 50] ([1, 3].map Int.ofNat) = some r ∧
      r.length = [10, 20, 30, 40, 50].length - [1, 3].length ∧
      r = (List.range [10, 20, 30, 40, 50].length).filterMap
            (fun i => if i ∈ [1, 3] then none else [10, 20, 30, 40, 50][i]?) ∧
      (([1, 3] : List Nat) = [] → r = [10, 20, 30, 40, 50]) ∧
      ([1, 3].length = [10, 20, 30, 40, 50].length → r = []) :=
  ⟨by decide, compactBatched_correct [10, 20, 30, 40, 50] [1, 3] (by decide) (by decide)⟩

/-- C7. On an array `a` and a strictly ascending list `d` of positions of `a`, deleting
one element at a time at index `deletePosition - z` and the batched copy compaction
both succeed and return the same array (same length, same element at every index). -/
theorem deleteOneByOne_eq_compactBatched {α : Type} (a : List α) (d : List Nat)
    (hs : d.Pairwise (· < ·)) (hr : ∀ p ∈ d, p < a.length) :
    ∃ r : List α,
      deleteOneByOne a (d.map Int.ofNat) = some r ∧
      compactBatched a (d.map Int.ofNat) = some r := by
  exact ⟨keepRuns a 0 d, deleteOneByOne_eq_keepRuns a d hs hr,
    (compactBatched_eq_keepRuns a d hs hr).1⟩

/-- C7, at `a = [7,8,9,10]` and `d = [0,2,3]`: both procedures return `[8]`. -/
theorem deleteOneByOne_eq_compactBatched_witness :
    deleteOneByOne [7, 8, 9, 10] ([0, 2, 3].map Int.ofNat) = some [8] ∧
    ∃ r : List Nat,
      deleteOneByOne [7, 8, 9, 10] ([0, 2, 3].map Int.ofNat) = some r ∧
      compactBatched [7, 8, 9, 10] ([0, 2, 3].map Int.ofNat) = some r :=
  ⟨by decide, deleteOneByOne_eq_compactBatched [7, 8, 9, 10] [0, 2, 3] (by decide) (by decide)⟩

/-! ## `DedupeBlock`: the first pass -/

theorem u32_of_lt (n : Nat) (h : n < 2 ^ 32) : u32 n = n := Nat.mod_eq_of_lt h

theorem inmapInputs_append (a b : List TxIn) (m : InMap) (i : Nat) :
    inmapInputs (a ++ b) m i = inmapInputs b (inmapInputs a m i).1 (inmapInputs a m i).2 := by
  induction a generalizing m i with
  | nil => rfl
  | cons x a ih =>
    simp only [List.cons_append, inmapInputs]
    exact ih _ _

theorem inmapTxs_tail (txs : List Tx) :
    ∀ (c : Nat) (m : InMap) (i : Nat), c ≠ 0 →
      inmapTxs txs c m i = inmapInputs (blockInputs txs) m i := by
  induction txs with
  | nil => intro c m i _; rfl
  | cons tx txs ih =>
    intro c m i hc
    have e : blockInputs (tx :: txs) = tx.TxIn ++ blockInputs txs := by
      simp [blockInputs]
    rw [e, inmapInputs_append, inmapTxs, if_neg hc]
    exact ih (c + 1) _ _ (by omega)

theorem inmapInputs_snd (ins : List TxIn) :
    ∀ (m : InMap) (i : Nat), i + ins.length < 2 ^ 32 →
      (inmapInputs ins m i).2 = i + ins.length := by
  induction ins with
  | nil => intro m i _; rfl
  | cons x ins ih =>
    intro m i h
    simp only [List.length_cons] at h
    rw [inmapInputs, u32_of_lt (i + 1) (by omega), ih _ _ (by omega)]
    simp only [List.length_cons]; omega

theorem inmapInputs_fst (ins : List TxIn) (op : OutPoint) :
    ∀ (m : InMap) (i : Nat), i + ins.length < 2 ^ 32 →
      (inmapInputs ins m i).1 op
        = match lastIdx op ins with
          | some j => some (i + j)
          | none => m op := by
  induction ins with
  | nil => intro m i _; rfl
  | cons x ins ih =>
    intro m i h
    simp only [List.length_cons] at h
    rw [inmapInputs, u32_of_lt (i + 1) (by omega), ih _ _ (by omega), lastIdx]
    cases hl : lastIdx op ins with
    | some j => simp only; congr 1; omega
    | none =>
      simp only [InMap.set]
      by_cases hop : op = x.PreviousOutPoint
      · simp [hop]
      · simp [hop]

theorem lastIdx_none (op : OutPoint) (ins : List TxIn) :
    lastIdx op ins = none ↔ ∀ x ∈ ins, x.PreviousOutPoint ≠ op := by
  induction ins with
  | nil => simp [lastIdx]
  | cons x ins ih =>
    rw [lastIdx]
    cases hl : lastIdx op ins with
    | some j =>
      simp only [reduceCtorEq, false_iff]
      intro hall
      have := ih.mpr (fun y hy => hall y (List.mem_cons_of_mem _ hy))
      rw [hl] at this
      cases this
    | none =>
      have hrest := ih.mp hl
      by_cases hop : op = x.PreviousOutPoint
      · simp only [hop, if_true, reduceCtorEq, false_iff]
        intro hall
        exact hall x (List.mem_cons_self _ _) rfl
      · simp only [hop, if_false, true_iff]
        intro y hy
        rcases List.mem_cons.mp hy with h | h
        · subst h; exact fun h => hop h.symm
        · exact hrest y h

theorem lastIdx_some (op : OutPoint) (ins : List TxIn) :
    ∀ j, lastIdx op ins = some j →
      ∃ h : j < ins.length, (ins[j]).PreviousOutPoint = op ∧
        ∀ j' (h' : j' < ins.length), j < j' → (ins[j']).PreviousOutPoint ≠ op := by
  induction ins with
  | nil => intro j h; simp [lastIdx] at h
  | cons x ins ih =>
    intro j h
    rw [lastIdx] at h
    cases hl : lastIdx op ins with
    | some j0 =>
      rw [hl] at h
      simp only [Option.some.injEq] at h
      subst h
      obtain ⟨h1, h2, h3⟩ := ih j0 hl
      refine ⟨by simp only [List.length_cons]; omega, by simpa using h2, ?_⟩
      intro j' h' hlt
      match j', h', hlt with
      | j'' + 1, h', hlt =>
        simp only [List.getElem_cons_succ]
        exact h3 j'' (by simp only [List.length_cons] at h'; omega) (by omega)
    | none =>
      rw [hl] at h
      simp only at h
      by_cases hop : op = x.PreviousOutPoint
      · rw [if_pos hop] at h
        simp only [Option.some.injEq] at h
        subst h
        refine ⟨by simp, by simpa using hop.symm, ?_⟩
        intro j' h' hlt
        match j', h', hlt with
        | j'' + 1, h', hlt =>
          simp only [List.getElem_cons_succ]
          exact (lastIdx_none op ins).mp hl _ (List.getElem_mem _)
      · rw [if_neg hop] at h
        cases h

/-! ## `DedupeBlock`: the second pass -/

theorem hits_append (m : InMap) (a b : List OutPoint) :
    ∀ i, hits m (a ++ b) i = hits m a i ++ hits m b (i + a.length) := by
  induction a with
  | nil => intro i; rfl
  | cons k a ih =>
    intro i
    have e : i + (k :: a).length = i + 1 + a.length := by simp only [List.length_cons]; omega
    simp only [List.cons_append, hits, e]
    cases m k <;> simp [ih]

theorem mem_hits (m : InMap) (keys : List OutPoint) (x y : Nat) :
    ∀ i, (x, y) ∈ hits m keys i ↔
      ∃ j, ∃ h : j < keys.length, y = i + j ∧ m (keys[j]) = some x := by
  induction keys with
  | nil => intro i; simp [hits]
  | cons k ks ih =>
    intro i
    have shift : (∃ j, ∃ h : j < ks.length, y = i + 1 + j ∧ m (ks[j]) = some x) ↔
        (∃ j, ∃ h : j + 1 < (k :: ks).length, y = i + (j + 1) ∧ m ((k :: ks)[j + 1]) = some x) := by
      constructor
      · rintro ⟨j, h, h1, h2⟩
        exact ⟨j, by simp only [List.length_cons]; omega, by omega, by simpa using h2⟩
      · rintro ⟨j, h, h1, h2⟩
        exact ⟨j, by simp only [List.length_cons] at h; omega, by omega, by simpa using h2⟩
    have split : (∃ j, ∃ h : j < (k :: ks).length, y = i + j ∧ m ((k :: ks)[j]) = some x) ↔
        ((y = i ∧ m k = some x) ∨
          ∃ j, ∃ h : j + 1 < (k :: ks).length, y = i + (j + 1) ∧ m ((k :: ks)[j + 1]) = some x) := by
      constructor
      · rintro ⟨j, h, h1, h2⟩
        match j, h, h1, h2 with
        | 0, _, h1, h2 => exact Or.inl ⟨by omega, by simpa using h2⟩
        | j + 1, h, h1, h2 => exact Or.inr ⟨j, h, h1, h2⟩
      · rintro (⟨h1, h2⟩ | ⟨j, h, h1, h2⟩)
        · exact ⟨0, by simp, by omega, by simpa using h2⟩
        · exact ⟨j + 1, h, h1, h2⟩
    rw [split, ← shift, ← ih (i + 1), hits]
    cases hk : m k with
    | none =>
      simp only [reduceCtorEq, and_false, false_or]
    | some v =>
      simp only [List.mem_cons, Prod.mk.injEq, Option.some.injEq]
      constructor
      · rintro (⟨h1, h2⟩ | h)
        · exact Or.inl ⟨h2, h1.symm⟩
        · exact Or.inr h
      · rintro (⟨h1, h2⟩ | h)
        · exact Or.inl ⟨h2.symm, h1⟩
        · exact Or.inr h

theorem hits_snd_pairwise (m : InMap) (keys : List OutPoint) :
    ∀ i, ((hits m keys i).map Prod.snd).Pairwise (· < ·) := by
  induction keys with
  | nil => intro i; simp [hits]
  | cons k ks ih =>
    intro i
    rw [hits]
    cases m k with
    | none => exact ih (i + 1)
    | some v =>
      simp only [List.map_cons, List.pairwise_cons]
      refine ⟨?_, ih (i + 1)⟩
      intro y hy
      obtain ⟨⟨x, y'⟩, hmem, rfl⟩ := List.mem_map.mp hy
      obtain ⟨j, _, h1, _⟩ := (mem_hits m ks x y' (i + 1)).mp hmem
      simp only; omega

theorem skipOutputs_spec (m : InMap) (txHash : List Nat) (outs : List TxOut) :
    ∀ (outidx i : Nat) (inskip outskip : List Nat),
      outidx + outs.length ≤ 2 ^ 32 → i + outs.length < 2 ^ 32 →
      skipOutputs m txHash outs outidx i inskip outskip
        = (i + outs.length,
           inskip ++ (hits m ((List.range' outidx outs.length).map
              (fun j => (⟨txHash, j⟩ : OutPoint))) i).map Prod.fst,
           outskip ++ (hits m ((List.range' outidx outs.length).map
              (fun j => (⟨txHash, j⟩ : OutPoint))) i).map Prod.snd) := by
  induction outs with
  | nil => intro outidx i inskip outskip _ _; simp [skipOutputs, hits]
  | cons o outs ih =>
    intro outidx i inskip outskip h1 h2
    simp only [List.length_cons] at h1 h2
    simp only [skipOutputs, List.length_cons, List.range'_succ, List.map_cons, hits]
    rw [u32_of_lt outidx (by omega), u32_of_lt (i + 1) (by omega)]
    cases hk : m ⟨txHash, outidx⟩ with
    | none =>
      simp only
      rw [ih (outidx + 1) (i + 1) inskip outskip (by omega) (by omega)]
      congr 1; omega
    | some v =>
      simp only
      rw [ih (outidx + 1) (i + 1) _ _ (by omega) (by omega)]
      simp only [List.map_cons, List.append_assoc, List.singleton_append]
      congr 1; omega

theorem txOutpoints_eq (tx : Tx) :
    txOutpoints tx
      = (List.range' 0 tx.TxOut.length).map (fun j => (⟨tx.Hash, j⟩ : OutPoint)) := by
  rw [txOutpoints, List.range_eq_range']

theorem length_txOutpoints (tx : Tx) : (txOutpoints tx).length = tx.TxOut.length := by
  simp [txOutpoints]

theorem blockOutpoints_cons (tx : Tx) (txs : List Tx) :
    blockOutpoints (tx :: txs) = txOutpoints tx ++ blockOutpoints txs := by
  simp [blockOutpoints]

theorem blockInputs_cons (tx : Tx) (txs : List Tx) :
    blockInputs (tx :: txs) = tx.TxIn ++ blockInputs txs := by
  simp [blockInputs]

theorem skipTxs_tail (m : InMap) (txs : List Tx) :
    ∀ (c i : Nat) (inskip outskip : List Nat), c ≠ 0 →
      i + (blockOutpoints txs).length < 2 ^ 32 →
      skipTxs m txs c i inskip outskip
        = (i + (blockOutpoints txs).length,
           inskip ++ (hits m (blockOutpoints txs) i).map Prod.fst,
           outskip ++ (hits m (blockOutpoints txs) i).map Prod.snd) := by
  induction txs with
  | nil => intro c i inskip outskip _ _; simp [skipTxs, blockOutpoints, hits]
  | cons tx txs ih =>
    intro c i inskip outskip hc h
    rw [blockOutpoints_cons, List.length_append, length_txOutpoints] at h
    rw [skipTxs, if_neg hc, skipOutputs_spec m tx.Hash tx.TxOut 0 i inskip outskip
      (by omega) (by omega)]
    simp only
    rw [ih (c + 1) _ _ _ (by omega) (by omega), blockOutpoints_cons, hits_append,
      ← txOutpoints_eq, length_txOutpoints, List.length_append, length_txOutpoints]
    simp only [List.map_append, List.append_assoc, Nat.add_assoc]

/-! ## `DedupeBlock`: closed form -/

theorem blockInputs_split (blk : List Tx) :
    blockInputs blk = blockInputs (blk.take 1) ++ blockInputs blk.tail ∧
    (blockInputs (blk.take 1)).length = coinbaseInCount blk := by
  cases blk with
  | nil => simp [blockInputs, coinbaseInCount]
  | cons cb txs => simp [blockInputs, coinbaseInCount]

theorem blockOutpoints_split (blk : List Tx) :
    blockOutpoints blk = blockOutpoints (blk.take 1) ++ blockOutpoints blk.tail ∧
    (blockOutpoints (blk.take 1)).length = coinbaseOutCount blk := by
  cases blk with
  | nil => simp [blockOutpoints, coinbaseOutCount]
  | cons cb txs => simp [blockOutpoints, coinbaseOutCount, length_txOutpoints]

/-- For a block within the range of the `uint32` counters the two passes compute the
number of inputs, the number of outputs and the hits of the probes. -/
theorem dedupePasses_eq (blk : List Tx)
    (hin : (blockInputs blk).length < 2 ^ 32) (hout : (blockOutpoints blk).length < 2 ^ 32) :
    dedupePasses blk
      = ⟨(blockInputs blk).length, (blockOutpoints blk).length,
         (blockHits blk).map Prod.fst, (blockHits blk).map Prod.snd⟩ := by
  cases blk with
  | nil => rfl
  | cons cb txs =>
    rw [blockInputs_cons, List.length_append] at hin
    rw [blockOutpoints_cons, List.length_append, length_txOutpoints] at hout
    have h1 : inmapTxs (cb :: txs) 0 InMap.empty 0
        = (blockInmap (cb :: txs), (blockInputs (cb :: txs)).length) := by
      rw [inmapTxs, if_pos rfl, inmapTxs_tail txs _ _ _ (by omega),
        u32_of_lt cb.TxIn.length (by omega)]
      simp only [Nat.zero_add]
      rw [u32_of_lt cb.TxIn.length (by omega)]
      apply Prod.ext
      · funext op
        rw [inmapInputs_fst _ op _ _ (by omega)]
        simp only [blockInmap, List.tail_cons, coinbaseInCount, List.take_succ_cons,
          List.take_zero, List.map_cons, List.map_nil, List.sum_cons, List.sum_nil,
          Nat.add_zero]
        cases lastIdx op (blockInputs txs) <;> rfl
      · rw [inmapInputs_snd _ _ _ (by omega), blockInputs_cons, List.length_append]
    have h2 : skipTxs (blockInmap (cb :: txs)) (cb :: txs) 0 0 [] []
        = ((blockOutpoints (cb :: txs)).length,
           (blockHits (cb :: txs)).map Prod.fst, (blockHits (cb :: txs)).map Prod.snd) := by
      rw [skipTxs, if_pos rfl, u32_of_lt cb.TxOut.length (by omega)]
      simp only [Nat.zero_add]
      rw [u32_of_lt cb.TxOut.length (by omega), skipTxs_tail _ txs _ _ _ _ (by omega) (by omega)]
      simp [blockHits, coinbaseOutCount, blockOutpoints_cons, length_txOutpoints]
    simp only [dedupePasses, h1, h2]

/-! ## `DedupeBlock`: what the map and the hits are, in the flattened numbering -/

theorem spentAt_tail (blk : List Tx) (j : Nat) :
    spentAt blk (coinbaseInCount blk + j)
      = ((blockInputs blk.tail)[j]?).map TxIn.PreviousOutPoint := by
  obtain ⟨h1, h2⟩ := blockInputs_split blk
  rw [spentAt, h1, List.getElem?_append_right (by omega), h2, Nat.add_sub_cancel_left]

theorem createdAt_tail (blk : List Tx) (j : Nat) :
    createdAt blk (coinbaseOutCount blk + j) = (blockOutpoints blk.tail)[j]? := by
  obtain ⟨h1, h2⟩ := blockOutpoints_split blk
  rw [createdAt, h1, List.getElem?_append_right (by omega), h2, Nat.add_sub_cancel_left]

theorem spentAt_lt (blk : List Tx) (k : Nat) (op : OutPoint) (h : spentAt blk k = some op) :
    k < (blockInputs blk).length := by
  unfold spentAt at h
  by_contra hk
  rw [List.getElem?_eq_none (by omega)] at h
  cases h

/-- A value of the map is the flattened index of a non-coinbase input that spends the
key, and no later input spends the same outpoint. -/
theorem blockInmap_some (blk : List Tx) (op : OutPoint) (k : Nat)
    (h : blockInmap blk op = some k) :
    coinbaseInCount blk ≤ k ∧ spentAt blk k = some op ∧
      ∀ k', k < k' → spentAt blk k' ≠ some op := by
  unfold blockInmap at h
  cases hl : lastIdx op (blockInputs blk.tail) with
  | none => rw [hl] at h; cases h
  | some j =>
    rw [hl] at h
    simp only [Option.map_some', Option.some.injEq] at h
    subst h
    obtain ⟨h1, h2, h3⟩ := lastIdx_some op _ j hl
    refine ⟨by omega, ?_, ?_⟩
    · rw [spentAt_tail, List.getElem?_eq_getElem h1, Option.map_some', h2]
    · intro k' hlt
      obtain ⟨j', rfl⟩ : ∃ j', k' = coinbaseInCount blk + j' :=
        ⟨k' - coinbaseInCount blk, by omega⟩
      rw [spentAt_tail]
      by_cases hj : j' < (blockInputs blk.tail).length
      · rw [List.getElem?_eq_getElem hj, Option.map_some']
        intro he
        exact h3 j' hj (by omega) (Option.some.inj he)
      · rw [List.getElem?_eq_none (by omega)]
        simp

/-- An outpoint is absent from the map only if no non-coinbase input spends it. -/
theorem blockInmap_none (blk : List Tx) (op : OutPoint) (h : blockInmap blk op = none) :
    ∀ k, coinbaseInCount blk ≤ k → spentAt blk k ≠ some op := by
  unfold blockInmap at h
  cases hl : lastIdx op (blockInputs blk.tail) with
  | some j => rw [hl] at h; cases h
  | none =>
    intro k hk
    obtain ⟨j, rfl⟩ : ∃ j, k = coinbaseInCount blk + j := ⟨k - coinbaseInCount blk, by omega⟩
    rw [spentAt_tail]
    by_cases hj : j < (blockInputs blk.tail).length
    · rw [List.getElem?_eq_getElem hj, Option.map_some']
      intro he
      exact (lastIdx_none op _).mp hl _ (List.getElem_mem _) (Option.some.inj he)
    · rw [List.getElem?_eq_none (by omega)]
      simp

/-- The hits are the pairs `(x, y)` where `y` is the flattened index of a non-coinbase
output and `x` the value of the map at the outpoint of that output. -/
theorem mem_blockHits (blk : List Tx) (x y : Nat) :
    (x, y) ∈ blockHits blk ↔
      coinbaseOutCount blk ≤ y ∧ ∃ op, createdAt blk y = some op ∧ blockInmap blk op = some x := by
  unfold blockHits
  rw [mem_hits]
  constructor
  · rintro ⟨j, hj, rfl, hm⟩
    refine ⟨by omega, _, ?_, hm⟩
    rw [createdAt_tail, List.getElem?_eq_getElem hj]
  · rintro ⟨hy, op, hc, hm⟩
    obtain ⟨j, rfl⟩ : ∃ j, y = coinbaseOutCount blk + j := ⟨y - coinbaseOutCount blk, by omega⟩
    rw [createdAt_tail] at hc
    have hj : j < (blockOutpoints blk.tail).length := by
      by_contra hj
      rw [List.getElem?_eq_none (by omega)] at hc
      cases hc
    rw [List.getElem?_eq_getElem hj, Option.some.injEq] at hc
    exact ⟨j, hj, rfl, by rw [hc]; exact hm⟩

theorem zip_map_fst_snd {α β : Type} (l : List (α × β)) :
    (l.map Prod.fst).zip (l.map Prod.snd) = l := by
  induction l with
  | nil => rfl
  | cons x l ih => simp [ih]

theorem perm_sortUint32s (s : List Nat) : (sortUint32s s).Perm s :=
  List.perm_insertionSort _ s

theorem sorted_sortUint32s (s : List Nat) : (sortUint32s s).Pairwise (· ≤ ·) :=
  List.sorted_insertionSort _ s

theorem DedupeBlock_eq (blk : List Tx)
    (hin : (blockInputs blk).length < 2 ^ 32) (hout : (blockOutpoints blk).length < 2 ^ 32) :
    DedupeBlock blk
      = ⟨(blockInputs blk).length, (blockOutpoints blk).length,
         sortUint32s ((blockHits blk).map Prod.fst), (blockHits blk).map Prod.snd⟩ := by
  rw [DedupeBlock, dedupePasses_eq blk hin hout]

/-! ## `DedupeBlock`: the claims -/

theorem blockInmap_inj (blk : List Tx) (op1 op2 : OutPoint) (k : Nat)
    (h1 : blockInmap blk op1 = some k) (h2 : blockInmap blk op2 = some k) : op1 = op2 := by
  have e1 := (blockInmap_some blk op1 k h1).2.1
  have e2 := (blockInmap_some blk op2 k h2).2.1
  rw [e1] at e2
  exact Option.some.inj e2

theorem hits_fst_nodup (m : InMap) (keys : List OutPoint)
    (hinj : ∀ op1 op2 k, m op1 = some k → m op2 = some k → op1 = op2)
    (hnd : keys.Nodup) : ∀ i, ((hits m keys i).map Prod.fst).Nodup := by
  induction keys with
  | nil => intro i; simp [hits]
  | cons k ks ih =>
    intro i
    rw [List.nodup_cons] at hnd
    rw [hits]
    cases hk : m k with
    | none => exact ih hnd.2 (i + 1)
    | some v =>
      simp only [List.map_cons, List.nodup_cons]
      refine ⟨?_, ih hnd.2 (i + 1)⟩
      intro hv
      obtain ⟨⟨x, y⟩, hmem, hx⟩ := List.mem_map.mp hv
      simp only at hx
      subst hx
      obtain ⟨j, hj, _, hm⟩ := (mem_hits m ks x y (i + 1)).mp hmem
      have := hinj _ _ _ hm hk
      exact hnd.1 (this ▸ List.getElem_mem hj)

/-- In the order of discovery every hit pairs an output with an input that spends it. -/
theorem paired_blockHits (blk : List Tx) :
    Paired blk ((blockHits blk).map Prod.fst) ((blockHits blk).map Prod.snd) := by
  refine ⟨by simp, ?_⟩
  rw [zip_map_fst_snd]
  rintro ⟨x, y⟩ hp
  obtain ⟨_, op, hc, hm⟩ := (mem_blockHits blk x y).mp hp
  have hs := (blockInmap_some blk op x hm).2.1
  simp only [hc, hs, Option.isSome_some, and_self]

/-- C5 (amended). For a block within the range of the `uint32` counters, `inskip` and
`outskip` have the same length; `inskip` is a rearrangement of the input indexes in the
order the second pass found them, and in that order (before the final sort) the k-th
input index is that of an input whose `PreviousOutPoint` is the outpoint of the output
at `outskip[k]`; after the sort every index of `outskip` still has an input index in
`inskip` that spends it. -/
theorem DedupeBlock_paired (blk : List Tx)
    (hin : (blockInputs blk).length < 2 ^ 32) (hout : (blockOutpoints blk).length < 2 ^ 32) :
    (DedupeBlock blk).inskip.length = (DedupeBlock blk).outskip.length ∧
    (DedupeBlock blk).inskip.Perm (dedupePasses blk).inskip ∧
    (DedupeBlock blk).outskip = (dedupePasses blk).outskip ∧
    Paired blk (dedupePasses blk).inskip (dedupePasses blk).outskip ∧
    (∀ o ∈ (DedupeBlock blk).outskip, ∃ k ∈ (DedupeBlock blk).inskip,
      (createdAt blk o).isSome = true ∧ createdAt blk o = spentAt blk k) := by
  have hp := perm_sortUint32s ((blockHits blk).map Prod.fst)
  rw [DedupeBlock_eq blk hin hout, dedupePasses_eq blk hin hout]
  refine ⟨?_, hp, rfl, paired_blockHits blk, ?_⟩
  · simp only [hp.length_eq, List.length_map]
  · intro o ho
    obtain ⟨⟨x, y⟩, hmem, hy⟩ := List.mem_map.mp ho
    simp only at hy
    subst hy
    obtain ⟨_, op, hc, hm⟩ := (mem_blockHits blk x y).mp hmem
    refine ⟨x, hp.mem_iff.mpr (List.mem_map.mpr ⟨(x, y), hmem, rfl⟩), ?_⟩
    simp only [hc, (blockInmap_some blk op x hm).2.1, Option.isSome_some, and_self]

/-- C5, the claim as stated fails: in `exBlock` the transaction `exTxB` spends output 1
of `exTxA` before output 0, so after the sort `inskip[0] = 2` is the input that spends
output 1 of `exTxA`, while `outskip[0] = 1` is output 0 of `exTxA`. -/
theorem DedupeBlock_paired_counterexample :
    (DedupeBlock exBlock).inskip = [2, 3] ∧ (DedupeBlock exBlock).outskip = [1, 2] ∧
    spentAt exBlock 2 = some ⟨hash32 2, 1⟩ ∧ createdAt exBlock 1 = some ⟨hash32 2, 0⟩ ∧
    ¬ Paired exBlock (DedupeBlock exBlock).inskip (DedupeBlock exBlock).outskip := by
  decide

/-- C5 (amended), at `exBlock`. -/
theorem DedupeBlock_paired_witness :
    (dedupePasses exBlock).inskip = [3, 2] ∧
    ((DedupeBlock exBlock).inskip.length = (DedupeBlock exBlock).outskip.length ∧
    (DedupeBlock exBlock).inskip.Perm (dedupePasses exBlock).inskip ∧
    (DedupeBlock exBlock).outskip = (dedupePasses exBlock).outskip ∧
    Paired exBlock (dedupePasses exBlock).inskip (dedupePasses exBlock).outskip ∧
    (∀ o ∈ (DedupeBlock exBlock).outskip, ∃ k ∈ (DedupeBlock exBlock).inskip,
      (createdAt exBlock o).isSome = true ∧ createdAt exBlock o = spentAt exBlock k)) :=
  ⟨by decide, DedupeBlock_paired exBlock (by decide) (by decide)⟩

/-- C6. For a block within the range of the `uint32` counters: when the outpoint of the
non-coinbase output with flattened index `o` is the `PreviousOutPoint` of exactly one
non-coinbase input, the one with flattened index `k`, then `o` is in `outskip` and `k`
is in `inskip`. -/
theorem DedupeBlock_complete (blk : List Tx)
    (hin : (blockInputs blk).length < 2 ^ 32) (hout : (blockOutpoints blk).length < 2 ^ 32)
    (o k : Nat) (op : OutPoint)
    (ho : coinbaseOutCount blk ≤ o) (hop : createdAt blk o = some op)
    (hk : coinbaseInCount blk ≤ k) (hkp : spentAt blk k = some op)
    (huniq : ∀ k', coinbaseInCount blk ≤ k' → spentAt blk k' = some op → k' = k) :
    o ∈ (DedupeBlock blk).outskip ∧ k ∈ (DedupeBlock blk).inskip := by
  rw [DedupeBlock_eq blk hin hout]
  cases hm : blockInmap blk op with
  | none => exact absurd hkp (blockInmap_none blk op hm k hk)
  | some k0 =>
    obtain ⟨h1, h2, _⟩ := blockInmap_some blk op k0 hm
    have hk0 : k0 = k := huniq k0 h1 h2
    subst hk0
    have hmem : (k0, o) ∈ blockHits blk := (mem_blockHits blk k0 o).mpr ⟨ho, op, hop, hm⟩
    exact ⟨List.mem_map.mpr ⟨(k0, o), hmem, rfl⟩,
      (perm_sortUint32s _).mem_iff.mpr (List.mem_map.mpr ⟨(k0, o), hmem, rfl⟩)⟩

/-- C6, at `exBlock`: output 0 of `exTxA` (flattened index 1) is spent by the second
input of `exTxB` (flattened index 3) only. -/
theorem DedupeBlock_complete_witness :
    createdAt exBlock 1 = some ⟨hash32 2, 0⟩ ∧ spentAt exBlock 3 = some ⟨hash32 2, 0⟩ ∧
    1 ∈ (DedupeBlock exBlock).outskip ∧ 3 ∈ (DedupeBlock exBlock).inskip := by
  refine ⟨by decide, by decide, ?_⟩
  refine DedupeBlock_complete exBlock (by decide) (by decide) 1 3 ⟨hash32 2, 0⟩
    (by decide) (by decide) (by decide) (by decide) ?_
  intro k' h1 h2
  have h3 := spentAt_lt _ _ _ h2
  have h4 : (blockInputs exBlock).length = 4 := by decide
  have h5 : coinbaseInCount exBlock = 1 := by decide
  rw [h4] at h3
  rw [h5] at h1
  interval_cases k'
  · exact absurd h2 (by decide)
  · exact absurd h2 (by decide)
  · rfl

theorem outskip_pairwise_lt (blk : List Tx)
    (hin : (blockInputs blk).length < 2 ^ 32) (hout : (blockOutpoints blk).length < 2 ^ 32) :
    (DedupeBlock blk).outskip.Pairwise (· < ·) := by
  rw [DedupeBlock_eq blk hin hout]
  exact hits_snd_pairwise _ _ _

theorem inskip_pairwise_le (blk : List Tx) : (DedupeBlock blk).inskip.Pairwise (· ≤ ·) :=
  sorted_sortUint32s _

theorem inskip_pairwise_lt (blk : List Tx)
    (hin : (blockInputs blk).length < 2 ^ 32) (hout : (blockOutpoints blk).length < 2 ^ 32)
    (hnd : (blockOutpoints blk.tail).Nodup) :
    (DedupeBlock blk).inskip.Pairwise (· < ·) := by
  rw [DedupeBlock_eq blk hin hout]
  have h1 : ((blockHits blk).map Prod.fst).Nodup :=
    hits_fst_nodup _ _ (blockInmap_inj blk) hnd _
  have h2 : (sortUint32s ((blockHits blk).map Prod.fst)).Nodup :=
    (perm_sortUint32s _).nodup_iff.mpr h1
  exact List.Sorted.lt_of_le (sorted_sortUint32s _) h2

/-- Transactions with pairwise distinct hashes have pairwise distinct outpoints. -/
theorem nodup_blockOutpoints (txs : List Tx) (h : (txs.map Tx.Hash).Nodup) :
    (blockOutpoints txs).Nodup := by
  induction txs with
  | nil => simp [blockOutpoints]
  | cons tx txs ih =>
    rw [List.map_cons, List.nodup_cons] at h
    rw [blockOutpoints_cons, List.nodup_append]
    refine ⟨?_, ih h.2, ?_⟩
    · unfold txOutpoints
      refine List.Nodup.map ?_ (List.nodup_range _)
      intro a b hab
      exact (OutPoint.mk.injEq _ _ _ _ ▸ hab : _ ∧ a = b).2
    · intro op h1 h2
      obtain ⟨j, _, rfl⟩ := List.mem_map.mp h1
      unfold blockOutpoints at h2
      obtain ⟨l, hl, hop⟩ := List.mem_flatten.mp h2
      obtain ⟨tx', htx', rfl⟩ := List.mem_map.mp hl
      obtain ⟨j', _, he⟩ := List.mem_map.mp hop
      have : tx'.Hash = tx.Hash := (OutPoint.mk.injEq _ _ _ _ ▸ he : _ ∧ j' = j).1
      exact h.1 (this ▸ List.mem_map.mpr ⟨tx', htx', rfl⟩)

/-- C8 (amended). For a block within the range of the `uint32` counters, `outskip` is
strictly increasing and `inskip` is ascending; `inskip` is strictly increasing as well
when no two non-coinbase outputs of the block have the same outpoint, in particular
when the non-coinbase transactions have pairwise distinct hashes. -/
theorem DedupeBlock_sorted (blk : List Tx)
    (hin : (blockInputs blk).length < 2 ^ 32) (hout : (blockOutpoints blk).length < 2 ^ 32) :
    (DedupeBlock blk).outskip.Pairwise (· < ·) ∧
    (DedupeBlock blk).inskip.Pairwise (· ≤ ·) ∧
    ((blockOutpoints blk.tail).Nodup → (DedupeBlock blk).inskip.Pairwise (· < ·)) ∧
    ((blk.tail.map Tx.Hash).Nodup → (DedupeBlock blk).inskip.Pairwise (· < ·)) :=
  ⟨outskip_pairwise_lt blk hin hout, inskip_pairwise_le blk,
    inskip_pairwise_lt blk hin hout,
    fun h => inskip_pairwise_lt blk hin hout (nodup_blockOutpoints _ h)⟩

/-- C8, the claim as stated fails: in `exBlockDup`, which holds `exTxA` twice, each
output of `exTxA` is probed twice and `inskip` is `[3, 3, 4, 4]`. -/
theorem DedupeBlock_sorted_counterexample :
    (DedupeBlock exBlockDup).inskip = [3, 3, 4, 4] ∧
    ¬ (DedupeBlock exBlockDup).inskip.Pairwise (· < ·) := by
  decide

/-- C8 (amended), at `exBlock`. -/
theorem DedupeBlock_sorted_witness :
    (blockOutpoints exBlock.tail).Nodup ∧
    ((DedupeBlock exBlock).outskip.Pairwise (· < ·) ∧
    (DedupeBlock exBlock).inskip.Pairwise (· ≤ ·) ∧
    ((blockOutpoints exBlock.tail).Nodup → (DedupeBlock exBlock).inskip.Pairwise (· < ·)) ∧
    ((exBlock.tail.map Tx.Hash).Nodup → (DedupeBlock exBlock).inskip.Pairwise (· < ·))) :=
  ⟨by decide, DedupeBlock_sorted exBlock (by decide) (by decide)⟩

/-! ## `BlockToDelOPs` -/

theorem delInputs_append (a b : List TxIn) :
    ∀ (sk : List Nat) (idx : Nat) (del : List OutPoint),
      delInputs (a ++ b) sk idx del
        = delInputs b (delInputs a sk idx del).1 (delInputs a sk idx del).2.1
            (delInputs a sk idx del).2.2 := by
  induction a with
  | nil => intro sk idx del; rfl
  | cons x a ih =>
    intro sk idx del
    cases sk with
    | nil =>
      simp only [List.cons_append, delInputs]
      exact ih _ _ _
    | cons s sk =>
      simp only [List.cons_append, delInputs]
      split
      · exact ih _ _ _
      · exact ih _ _ _

theorem delTxs_tail (txs : List Tx) :
    ∀ (c : Nat) (sk : List Nat) (idx : Nat) (del : List OutPoint), c ≠ 0 →
      delTxs txs c sk idx del = delInputs (blockInputs txs) sk idx del := by
  induction txs with
  | nil => intro c sk idx del _; rfl
  | cons tx txs ih =>
    intro c sk idx del hc
    rw [blockInputs_cons, delInputs_append, delTxs, if_neg hc]
    exact ih (c + 1) _ _ _ (by omega)

/-- The merge of `BlockToDelOPs` on a strictly increasing skip list that starts at or
after the current index: the inputs whose index is not on the list are emitted. -/
theorem delInputs_spec (ins : List TxIn) :
    ∀ (sk : List Nat) (idx : Nat) (del : List OutPoint),
      sk.Pairwise (· < ·) → (∀ s ∈ sk, idx ≤ s) → idx + ins.length < 2 ^ 32 →
      (delInputs ins sk idx del).2.2
        = del ++ ((ins.enumFrom idx).filter (fun p => decide (p.1 ∉ sk))).map
            (fun p => p.2.PreviousOutPoint) := by
  induction ins with
  | nil => intro sk idx del _ _ _; simp [delInputs]
  | cons x ins ih =>
    intro sk idx del hpw hge hlt
    simp only [List.length_cons] at hlt
    cases sk with
    | nil =>
      rw [delInputs, u32_of_lt (idx + 1) (by omega),
        ih [] (idx + 1) _ List.Pairwise.nil (by simp) (by omega)]
      simp
    | cons s sk =>
      have hs := hge s (List.mem_cons_self _ _)
      have hgt : ∀ t ∈ sk, s < t := fun t ht => List.rel_of_pairwise_cons hpw ht
      rw [delInputs, u32_of_lt (idx + 1) (by omega)]
      by_cases he : s = idx
      · subst he
        rw [if_pos rfl, ih sk (s + 1) del (List.Pairwise.of_cons hpw)
          (fun t ht => by have := hgt t ht; omega) (by omega)]
        rw [List.enumFrom_cons, List.filter_cons_of_neg (by simp)]
        congr 2
        apply List.filter_congr
        intro p hp
        have := List.le_fst_of_mem_enumFrom hp
        have hne : p.1 ≠ s := by omega
        simp [hne]
      · rw [if_neg he, ih (s :: sk) (idx + 1) _ hpw
          (fun t ht => by
            rcases List.mem_cons.mp ht with h | h
            · omega
            · have := hgt t h; omega) (by omega)]
        have hnot : idx ∉ s :: sk := by
          intro hmem
          rcases List.mem_cons.mp hmem with h | h
          · exact he h.symm
          · have := hgt idx h; omega
        rw [List.enumFrom_cons, List.filter_cons_of_pos (by simpa using hnot)]
        simp

theorem length_le_of_pairwise_lt (l : List Nat) (n : Nat) (hpw : l.Pairwise (· < ·))
    (hlt : ∀ x ∈ l, x < n) : l.length ≤ n := by
  have hnd : l.Nodup := hpw.imp (fun h => Nat.ne_of_lt h)
  have hsub : l ⊆ List.range n := fun x hx => List.mem_range.mpr (hlt x hx)
  have := (List.subperm_of_subset hnd hsub).length_le
  simpa using this

theorem mem_inskip (blk : List Tx)
    (hin : (blockInputs blk).length < 2 ^ 32) (hout : (blockOutpoints blk).length < 2 ^ 32)
    (k : Nat) (hk : k ∈ (DedupeBlock blk).inskip) :
    coinbaseInCount blk ≤ k ∧ k < (blockInputs blk).length := by
  rw [DedupeBlock_eq blk hin hout] at hk
  have hk' := (perm_sortUint32s _).mem_iff.mp hk
  obtain ⟨⟨x, y⟩, hmem, hx⟩ := List.mem_map.mp hk'
  simp only at hx
  subst hx
  obtain ⟨_, op, _, hm⟩ := (mem_blockHits blk x y).mp hmem
  obtain ⟨h1, h2, _⟩ := blockInmap_some blk op x hm
  exact ⟨h1, spentAt_lt blk x op h2⟩

/-- For a block within the range of the `uint32` counters in which no two non-coinbase
outputs have the same outpoint, `BlockToDelOPs` does not panic and returns the
`PreviousOutPoint`s of the non-coinbase inputs whose flattened index is not in `inskip`. -/
theorem blockToDelOPs_eq_enumFrom (blk : List Tx)
    (hin : (blockInputs blk).length < 2 ^ 32) (hout : (blockOutpoints blk).length < 2 ^ 32)
    (hnd : (blockOutpoints blk.tail).Nodup) :
    BlockToDelOPs blk
      = some ((((blockInputs blk.tail).enumFrom (coinbaseInCount blk)).filter
          (fun p => decide (p.1 ∉ (DedupeBlock blk).inskip))).map
          (fun p => p.2.PreviousOutPoint)) := by
  have hpw : (DedupeBlock blk).inskip.Pairwise (· < ·) := inskip_pairwise_lt blk hin hout hnd
  have hmem := mem_inskip blk hin hout
  have hlen : (DedupeBlock blk).inskip.length ≤ (DedupeBlock blk).inCount := by
    have e : (DedupeBlock blk).inCount = (blockInputs blk).length := by
      rw [DedupeBlock_eq blk hin hout]
    rw [e]
    exact length_le_of_pairwise_lt _ _ hpw (fun x hx => (hmem x hx).2)
  unfold BlockToDelOPs
  simp only
  rw [if_neg (by omega)]
  congr 1
  generalize (DedupeBlock blk).inskip = sk at hpw hmem
  cases blk with
  | nil => rfl
  | cons cb txs =>
    rw [blockInputs_cons, List.length_append] at hin
    have hcb : coinbaseInCount (cb :: txs) = cb.TxIn.length := by simp [coinbaseInCount]
    rw [hcb] at hmem ⊢
    rw [delTxs, if_pos rfl, delTxs_tail txs _ _ _ _ (by omega),
      u32_of_lt cb.TxIn.length (by omega)]
    simp only [Nat.zero_add]
    rw [u32_of_lt cb.TxIn.length (by omega),
      delInputs_spec _ sk cb.TxIn.length [] hpw (fun s hs => (hmem s hs).1) (by omega)]
    rfl

/-- The non-coinbase inputs of a block, with their flattened indexes, are the inputs
of the block whose flattened index is at or after the number of coinbase inputs. -/
theorem filter_enum_blockInputs (blk : List Tx) (sk : List Nat) :
    (blockInputs blk).enum.filter (fun p => decide (coinbaseInCount blk ≤ p.1 ∧ p.1 ∉ sk))
      = ((blockInputs blk.tail).enumFrom (coinbaseInCount blk)).filter
          (fun p => decide (p.1 ∉ sk)) := by
  obtain ⟨h1, h2⟩ := blockInputs_split blk
  rw [h1, List.enum_append, List.filter_append, h2]
  have e1 : ((blockInputs (blk.take 1)).enum.filter
      (fun p => decide (coinbaseInCount blk ≤ p.1 ∧ p.1 ∉ sk))) = [] := by
    rw [List.filter_eq_nil_iff]
    intro p hp
    have := List.fst_lt_add_of_mem_enumFrom hp
    simp only [decide_eq_true_eq, not_and]
    intro h; omega
  have e2 : ((blockInputs blk.tail).enumFrom (coinbaseInCount blk)).filter
        (fun p => decide (coinbaseInCount blk ≤ p.1 ∧ p.1 ∉ sk))
      = ((blockInputs blk.tail).enumFrom (coinbaseInCount blk)).filter
        (fun p => decide (p.1 ∉ sk)) := by
    apply List.filter_congr
    intro p hp
    have := List.le_fst_of_mem_enumFrom hp
    simp [this]
  rw [e1, e2, List.nil_append]

/-- C4 (amended). For a block within the range of the `uint32` counters in which no
two non-coinbase outputs have the same outpoint, `BlockToDelOPs` returns, in block
input order, exactly the `PreviousOutPoint`s of the non-coinbase inputs whose flattened
index (coinbase inputs counted) is not in the `inskip` of `DedupeBlock`. -/
theorem BlockToDelOPs_eq (blk : List Tx)
    (hin : (blockInputs blk).length < 2 ^ 32) (hout : (blockOutpoints blk).length < 2 ^ 32)
    (hnd : (blockOutpoints blk.tail).Nodup) :
    BlockToDelOPs blk
      = some (((blockInputs blk).enum.filter
          (fun p => decide (coinbaseInCount blk ≤ p.1 ∧ p.1 ∉ (DedupeBlock blk).inskip))).map
          (fun p => p.2.PreviousOutPoint)) := by
  rw [blockToDelOPs_eq_enumFrom blk hin hout hnd, filter_enum_blockInputs]

/-- C4, the claim as stated fails: `exBlockDup` holds `exTxA` twice, `inskip` is
`[3, 3, 4, 4]`, the merge consumes one `3` at input 3 and then never reaches the `4`s,
so the input with flattened index 4 is emitted although 4 is in `inskip`. -/
theorem BlockToDelOPs_counterexample :
    (DedupeBlock exBlockDup).inskip = [3, 3, 4, 4] ∧
    BlockToDelOPs exBlockDup = some [⟨hash32 9, 0⟩, ⟨hash32 9, 0⟩, ⟨hash32 2, 1⟩] ∧
    ((blockInputs exBlockDup).enum.filter
      (fun p => decide (coinbaseInCount exBlockDup ≤ p.1 ∧
        p.1 ∉ (DedupeBlock exBlockDup).inskip))).map (fun p => p.2.PreviousOutPoint)
      = [⟨hash32 9, 0⟩, ⟨hash32 9, 0⟩] ∧
    BlockToDelOPs exBlockDup
      ≠ some (((blockInputs exBlockDup).enum.filter
          (fun p => decide (coinbaseInCount exBlockDup ≤ p.1 ∧
            p.1 ∉ (DedupeBlock exBlockDup).inskip))).map (fun p => p.2.PreviousOutPoint)) := by
  decide

/-- C4 (amended), at `exBlock`: only the input of `exTxA` needs a proof. -/
theorem BlockToDelOPs_eq_witness :
    BlockToDelOPs exBlock = some [⟨hash32 9, 0⟩] ∧
    BlockToDelOPs exBlock
      = some (((blockInputs exBlock).enum.filter
          (fun p => decide (coinbaseInCount exBlock ≤ p.1 ∧
            p.1 ∉ (DedupeBlock exBlock).inskip))).map (fun p => p.2.PreviousOutPoint)) :=
  ⟨by decide, BlockToDelOPs_eq exBlock (by decide) (by decide) (by decide)⟩

/-! ## The leaf codec: layout and canonicity -/

theorem putBE_four (v : Nat) :
    putBE 4 v = [v / 2 ^ 24 % 256, v / 2 ^ 16 % 256, v / 2 ^ 8 % 256, v % 256] := by
  simp only [putBE, List.nil_append, List.cons_append, Nat.div_div_eq_div_mul]
  norm_num

theorem putBE_eight (v : Nat) :
    putBE 8 v = [v / 2 ^ 56 % 256, v / 2 ^ 48 % 256, v / 2 ^ 40 % 256, v / 2 ^ 32 % 256,
      v / 2 ^ 24 % 256, v / 2 ^ 16 % 256, v / 2 ^ 8 % 256, v % 256] := by
  simp only [putBE, List.nil_append, List.cons_append, Nat.div_div_eq_div_mul]
  norm_num

/-- C11. The encoding of a `LeafData` is the block hash, the outpoint hash, the 4
big-endian bytes of the index, the 4 big-endian bytes of the height (two's complement),
the 8 big-endian bytes of the amount (two's complement) and the script, in this order;
its length is 80 plus the length of the script. -/
theorem ToBytes_layout (l : LeafData) (h : l.WF) :
    l.ToBytes
      = l.BlockHash ++ l.Outpoint.Hash
        ++ [l.Outpoint.Index / 2 ^ 24 % 256, l.Outpoint.Index / 2 ^ 16 % 256,
            l.Outpoint.Index / 2 ^ 8 % 256, l.Outpoint.Index % 256]
        ++ [(l.CbHeight % 2 ^ 32).toNat / 2 ^ 24 % 256, (l.CbHeight % 2 ^ 32).toNat / 2 ^ 16 % 256,
            (l.CbHeight % 2 ^ 32).toNat / 2 ^ 8 % 256, (l.CbHeight % 2 ^ 32).toNat % 256]
        ++ [(l.Amt % 2 ^ 64).toNat / 2 ^ 56 % 256, (l.Amt % 2 ^ 64).toNat / 2 ^ 48 % 256,
            (l.Amt % 2 ^ 64).toNat / 2 ^ 40 % 256, (l.Amt % 2 ^ 64).toNat / 2 ^ 32 % 256,
            (l.Amt % 2 ^ 64).toNat / 2 ^ 24 % 256, (l.Amt % 2 ^ 64).toNat / 2 ^ 16 % 256,
            (l.Amt % 2 ^ 64).toNat / 2 ^ 8 % 256, (l.Amt % 2 ^ 64).toNat % 256]
        ++ l.ScriptPubkey ∧
    l.ToBytes.length = 80 + l.ScriptPubkey.length ∧
    l.BlockHash.length = 32 ∧ l.Outpoint.Hash.length = 32 := by
  refine ⟨?_, length_ToBytes l h, h.1, h.2.2.1⟩
  have hi : l.Outpoint.Index % 2 ^ 32 = l.Outpoint.Index := Nat.mod_eq_of_lt h.2.2.2.2.1
  simp only [LeafData.ToBytes, U32tB, I32tB, I64tB, hi, putBE_four, putBE_eight]

/-- C11, at a record with height `-5`: the height bytes are `ff ff ff fb`. -/
theorem ToBytes_layout_witness :
    (LeafData.mk (hash32 1) ⟨hash32 2, 258⟩ (-5) 1000 [106]).ToBytes
      = hash32 1 ++ hash32 2 ++ [0, 0, 1, 2] ++ [255, 255, 255, 251]
        ++ [0, 0, 0, 0, 0, 0, 3, 232] ++ [106] ∧
    (LeafData.mk (hash32 1) ⟨hash32 2, 258⟩ (-5) 1000 [106]).ToBytes.length = 80 + 1 := by
  have h := ToBytes_layout (LeafData.mk (hash32 1) ⟨hash32 2, 258⟩ (-5) 1000 [106]) (by decide)
  exact ⟨by decide, h.2.1⟩

/-! ## The frame codec beyond 65535 bytes -/

/-- C12 (amended). `PrefixLen16` never fails: it returns the two big-endian bytes of
`len(b) mod 65536` followed by `b`.  The prefix is the length of the payload when that
is at most 65535 and differs from it otherwise, and `PopPrefixLen16` then splits the
payload at `len(b) mod 65536`. -/
theorem PrefixLen16_eq (b : List Nat) :
    PrefixLen16 b = [b.length % 65536 / 256, b.length % 65536 % 256] ++ b ∧
    getBE ((PrefixLen16 b).take 2) = b.length % 65536 ∧
    (b.length ≤ 65535 → getBE ((PrefixLen16 b).take 2) = b.length) ∧
    (65535 < b.length → getBE ((PrefixLen16 b).take 2) ≠ b.length) ∧
    PopPrefixLen16 (PrefixLen16 b)
      = some (b.take (b.length % 65536), b.drop (b.length % 65536)) := by
  have e : PrefixLen16 b = [b.length % 65536 / 256, b.length % 65536 % 256] ++ b := by
    have h1 : b.length % 65536 / 256 % 256 = b.length % 65536 / 256 := by omega
    simp only [PrefixLen16, putBE, List.nil_append, List.cons_append, Nat.reducePow, h1]
  have g : getBE ((PrefixLen16 b).take 2) = b.length % 65536 := by
    rw [e]
    simp only [List.cons_append, List.nil_append, List.take_succ_cons, List.take_zero, getBE,
      List.foldl_cons, List.foldl_nil]
    omega
  refine ⟨e, g, ?_, ?_, ?_⟩
  · intro h; rw [g]; omega
  · intro h; rw [g]; omega
  · have hle : b.length % 65536 ≤ b.length := Nat.mod_le _ _
    simp only [PopPrefixLen16, g]
    rw [e]
    simp only [List.cons_append, List.nil_append, List.length_cons, List.drop_succ_cons,
      List.drop_zero]
    rw [if_neg (by omega), if_neg (by omega)]

/-- C12, the claim as stated fails: on a payload of 65536 bytes `PrefixLen16` returns
a frame, and its prefix is `00 00`. -/
theorem PrefixLen16_counterexample :
    (List.replicate 65536 0).length = 65536 ∧
    PrefixLen16 (List.replicate 65536 0) = 0 :: 0 :: List.replicate 65536 0 ∧
    getBE ((PrefixLen16 (List.replicate 65536 0)).take 2) ≠ (List.replicate 65536 0).length := by
  have hl : (List.replicate 65536 0).length = 65536 := List.length_replicate _ _
  have e : PrefixLen16 (List.replicate 65536 0) = 0 :: 0 :: List.replicate 65536 0 := by
    unfold PrefixLen16
    rw [hl]
    rfl
  refine ⟨hl, e, ?_⟩
  rw [e, hl]
  decide

theorem getBE_lt (b : List Nat) (hb : IsBytes b) : getBE b < 256 ^ b.length := by
  induction b using List.reverseRecOn with
  | nil => simp [getBE]
  | append_singleton b x ih =>
    have hx : x < 256 := hb x (by simp)
    have ih' := ih (fun y hy => hb y (by simp [hy]))
    rw [getBE_append_singleton, List.length_append, List.length_singleton, pow_succ]
    omega

theorem putBE_getBE (b : List Nat) (hb : IsBytes b) : putBE b.length (getBE b) = b := by
  induction b using List.reverseRecOn with
  | nil => rfl
  | append_singleton b x ih =>
    have hx : x < 256 := hb x (by simp)
    have ih' := ih (fun y hy => hb y (by simp [hy]))
    rw [getBE_append_singleton, List.length_append, List.length_singleton, putBE]
    have h1 : (getBE b * 256 + x) / 256 = getBE b := by omega
    have h2 : (getBE b * 256 + x) % 256 = x := by omega
    rw [h1, h2, ih']

theorem U32tB_BtU32 (b : List Nat) (hl : b.length = 4) (hb : IsBytes b) :
    U32tB (BtU32 b) = b := by
  have h := getBE_lt b hb
  rw [hl] at h
  unfold U32tB BtU32
  rw [Nat.mod_eq_of_lt (by omega)]
  have := putBE_getBE b hb
  rwa [hl] at this

theorem I32tB_BtI32 (b : List Nat) (hl : b.length = 4) (hb : IsBytes b) :
    I32tB (BtI32 b) = b ∧ -2 ^ 31 ≤ BtI32 b ∧ BtI32 b < 2 ^ 31 := by
  have h := getBE_lt b hb
  rw [hl] at h
  have hp := putBE_getBE b hb
  rw [hl] at hp
  unfold I32tB BtI32
  split
  · refine ⟨?_, by omega, by omega⟩
    have e : (((getBE b : Nat) : Int) % 2 ^ 32).toNat = getBE b := by omega
    rw [e, hp]
  · refine ⟨?_, by omega, by omega⟩
    have e : ((((getBE b : Nat) : Int) - 2 ^ 32) % 2 ^ 32).toNat = getBE b := by omega
    rw [e, hp]

theorem I64tB_BtI64 (b : List Nat) (hl : b.length = 8) (hb : IsBytes b) :
    I64tB (BtI64 b) = b ∧ -2 ^ 63 ≤ BtI64 b ∧ BtI64 b < 2 ^ 63 := by
  have h := getBE_lt b hb
  rw [hl] at h
  have hp := putBE_getBE b hb
  rw [hl] at hp
  unfold I64tB BtI64
  split
  · refine ⟨?_, by omega, by omega⟩
    have e : (((getBE b : Nat) : Int) % 2 ^ 64).toNat = getBE b := by omega
    rw [e, hp]
  · refine ⟨?_, by omega, by omega⟩
    have e : ((((getBE b : Nat) : Int) - 2 ^ 64) % 2 ^ 64).toNat = getBE b := by omega
    rw [e, hp]

theorem isBytes_slice (b : List Nat) (hb : IsBytes b) (lo hi : Nat) : IsBytes (slice b lo hi) :=
  fun x hx => hb x (List.mem_of_mem_drop (List.mem_of_mem_take hx))

theorem isBytes_drop (b : List Nat) (hb : IsBytes b) (n : Nat) : IsBytes (b.drop n) :=
  fun x hx => hb x (List.mem_of_mem_drop hx)

theorem slice_append_slice {α : Type} (b : List α) (lo mid hi : Nat)
    (h1 : lo ≤ mid) (h2 : mid ≤ hi) :
    slice b lo mid ++ slice b mid hi = slice b lo hi := by
  unfold slice
  have e1 : List.drop mid b = List.drop (mid - lo) (List.drop lo b) := by
    rw [List.drop_drop]; congr 1; omega
  have e2 : hi - lo = (mid - lo) + (hi - mid) := by omega
  rw [e1, e2, List.take_add]

/-- Decoding a byte sequence of at least 80 bytes and encoding the result gives the
byte sequence back, and the decoded record is in the range of the Go types. -/
theorem ToBytes_of_LeafDataFromBytes (b : List Nat) (hb : IsBytes b) (hl : 80 ≤ b.length)
    (l : LeafData) (h : LeafDataFromBytes b = some l) : l.WF ∧ l.ToBytes = b := by
  unfold LeafDataFromBytes at h
  rw [if_neg (by omega), Option.some.injEq] at h
  subst h
  have l1 : (slice b 64 68).length = 4 := by rw [length_slice b 64 68 (by omega)]
  have l2 : (slice b 68 72).length = 4 := by rw [length_slice b 68 72 (by omega)]
  have l3 : (slice b 72 80).length = 8 := by rw [length_slice b 72 80 (by omega)]
  have u := U32tB_BtU32 _ l1 (isBytes_slice b hb 64 68)
  have i32 := I32tB_BtI32 _ l2 (isBytes_slice b hb 68 72)
  have i64 := I64tB_BtI64 _ l3 (isBytes_slice b hb 72 80)
  refine ⟨⟨?_, isBytes_slice b hb 0 32, ?_, isBytes_slice b hb 32 64, ?_, i32.2, i64.2,
    isBytes_drop b hb 80⟩, ?_⟩
  · exact length_slice b 0 32 (by omega)
  · exact length_slice b 32 64 (by omega)
  · have := getBE_lt _ (isBytes_slice b hb 64 68)
    rw [l1] at this
    simp only [BtU32]
    omega
  · simp only [LeafData.ToBytes, u, i32.1, i64.1]
    rw [slice_append_slice b 0 32 64 (by omega) (by omega),
      slice_append_slice b 0 64 68 (by omega) (by omega),
      slice_append_slice b 0 68 72 (by omega) (by omega),
      slice_append_slice b 0 72 80 (by omega) (by omega)]
    simp [slice]

/-- C19. Every byte sequence of at least 80 bytes decodes, and encoding the decoded
record gives the sequence back; the decoded record is the only record (with fields in
the range of their Go types) whose encoding is the sequence, and its leaf hash is the
hash of the sequence. -/
theorem ToBytes_LeafDataFromBytes (sha256 : List Nat → List Nat) (b : List Nat)
    (hb : IsBytes b) (hl : 80 ≤ b.length) :
    ∃ l : LeafData,
      LeafDataFromBytes b = some l ∧ l.WF ∧ l.ToBytes = b ∧
      (∀ l' : LeafData, l'.WF → l'.ToBytes = b → l' = l) ∧
      l.LeafHash sha256 = sha256 b := by
  obtain ⟨l, hl1⟩ : ∃ l, LeafDataFromBytes b = some l := by
    unfold LeafDataFromBytes
    rw [if_neg (by omega)]
    exact ⟨_, rfl⟩
  obtain ⟨hwf, hto⟩ := ToBytes_of_LeafDataFromBytes b hb hl l hl1
  refine ⟨l, hl1, hwf, hto, ?_, ?_⟩
  · intro l' hwf' hto'
    have := leafData_decode_encode l' hwf'
    rw [hto', hl1] at this
    exact (Option.some.inj this).symm
  · unfold LeafData.LeafHash
    rw [hto]

/-- C19, at a sequence of 81 bytes. -/
theorem ToBytes_LeafDataFromBytes_witness :
    ∃ l : LeafData,
      LeafDataFromBytes (List.replicate 80 255 ++ [106]) = some l ∧ l.WF ∧
      l.ToBytes = List.replicate 80 255 ++ [106] ∧
      (∀ l' : LeafData, l'.WF → l'.ToBytes = List.replicate 80 255 ++ [106] → l' = l) ∧
      l.LeafHash (fun x => x.take 32) = (List.replicate 80 255 ++ [106]).take 32 :=
  ToBytes_LeafDataFromBytes (fun x => x.take 32) (List.replicate 80 255 ++ [106])
    (by decide) (by decide)

/-! ## Spendability -/

/-- C20. An output is unspendable exactly when its script is longer than 10000 bytes
or is non-empty with first byte `0x6a`; the script `6a 01 02` is unspendable and the
empty script is spendable. -/
theorem IsUnspendable_iff (o : TxOut) :
    (IsUnspendable o = true ↔
      10000 < o.PkScript.length ∨ (o.PkScript ≠ [] ∧ o.PkScript.head? = some 106)) ∧
    (∀ v : Int, IsUnspendable ⟨v, [106, 1, 2]⟩ = true) ∧
    (∀ v : Int, IsUnspendable ⟨v, []⟩ = false) := by
  refine ⟨?_, fun _ => rfl, fun _ => rfl⟩
  obtain ⟨v, s⟩ := o
  unfold IsUnspendable
  cases s with
  | nil => simp
  | cons x s =>
    by_cases h1 : 10000 < (x :: s).length
    · simp [h1]
    · by_cases h2 : x = 106
      · simp [h1, h2]
      · simp [h1, h2]

/-! ## The batched compaction on invalid position lists -/

theorem length_copyAt_of_le {α : Type} (s : List α) (w : Nat) (src : List α)
    (h : w ≤ s.length) : (copyAt s w src).length = s.length := by
  unfold copyAt
  simp only [List.length_append, List.length_take, List.length_drop]
  omega

theorem copyWithin_some {α : Type} (s s' : List α) (w lo hi : Int)
    (h : copyWithin s w lo hi = some s') :
    0 ≤ lo ∧ lo ≤ hi ∧ hi ≤ s.length ∧ s'.length = s.length := by
  unfold copyWithin at h
  split at h
  · rename_i hb
    rw [Option.some.injEq] at h
    subst h
    refine ⟨hb.2.2.1, hb.2.2.2.1, hb.2.2.2.2, ?_⟩
    apply length_copyAt_of_le
    omega
  · cases h

/-- When the `prevPos` loop ends without a panic, the positions were strictly ascending,
at or after the first `prevPos` and below the last one, and the length is unchanged. -/
theorem compactLoop_some {α : Type} (d : List Int) :
    ∀ (s s' : List α) (prev prev' : Int) (z : Nat),
      compactLoop s prev z d = some (s', prev') →
      d.Pairwise (· < ·) ∧ (∀ p ∈ d, prev ≤ p ∧ p < prev') ∧ prev ≤ prev' ∧
        s'.length = s.length := by
  induction d with
  | nil =>
    intro s s' prev prev' z h
    simp only [compactLoop, Option.some.injEq, Prod.mk.injEq] at h
    obtain ⟨h1, h2⟩ := h
    subst h1; subst h2
    simp
  | cons p d ih =>
    intro s s' prev prev' z h
    rw [compactLoop] at h
    cases hstep : (if prev = 0 then copyWithin s 0 0 p
        else copyWithin s (prev - z) prev p) with
    | none => rw [hstep] at h; cases h
    | some s1 =>
      rw [hstep] at h
      simp only at h
      have hb : prev ≤ p ∧ s1.length = s.length := by
        by_cases h0 : prev = 0
        · rw [if_pos h0] at hstep
          obtain ⟨_, h2, _, h4⟩ := copyWithin_some _ _ _ _ _ hstep
          exact ⟨by omega, h4⟩
        · rw [if_neg h0] at hstep
          obtain ⟨_, h2, _, h4⟩ := copyWithin_some _ _ _ _ _ hstep
          exact ⟨h2, h4⟩
      obtain ⟨i1, i2, i3, i4⟩ := ih s1 s' (p + 1) prev' (z + 1) h
      refine ⟨?_, ?_, by omega, by rw [i4, hb.2]⟩
      · rw [List.pairwise_cons]
        exact ⟨fun q hq => by have := (i2 q hq).1; omega, i1⟩
      · intro q hq
        rcases List.mem_cons.mp hq with h | h
        · subst h; exact ⟨hb.1, by omega⟩
        · have := i2 q h
          exact ⟨by omega, this.2⟩

/-- The batched compaction returns an array only on a strictly ascending list of
positions of the array. -/
theorem compactBatched_some {α : Type} (a r : List α) (d : List Int)
    (h : compactBatched a d = some r) :
    d.Pairwise (· < ·) ∧ ∀ p ∈ d, 0 ≤ p ∧ p < a.length := by
  unfold compactBatched at h
  simp only at h
  cases hloop : compactLoop a 0 0 d with
  | none => rw [hloop] at h; cases h
  | some sp =>
    obtain ⟨s, prev⟩ := sp
    rw [hloop] at h
    simp only at h
    obtain ⟨i1, i2, _, i4⟩ := compactLoop_some d a s 0 prev 0 hloop
    cases hcw : copyWithin s (prev - d.length) prev s.length with
    | none => rw [hcw] at h; cases h
    | some s1 =>
      obtain ⟨_, c2, _, _⟩ := copyWithin_some _ _ _ _ _ hcw
      refine ⟨i1, fun p hp => ?_⟩
      have := i2 p hp
      omega

/-- C15. On an array whose capacity is its length, the batched compaction panics (an
out-of-range slice expression) on every position list that is not sorted ascending, or
has a duplicate position, or has a position at or beyond the length of the array; it
returns no array for such a list. -/
theorem compactBatched_invalid {α : Type} (a : List α) (d : List Int)
    (h : ¬ d.Pairwise (· ≤ ·) ∨ ¬ d.Nodup ∨ ∃ p ∈ d, (a.length : Int) ≤ p) :
    compactBatched a d = none := by
  cases hc : compactBatched a d with
  | none => rfl
  | some r =>
    exfalso
    obtain ⟨h1, h2⟩ := compactBatched_some a r d hc
    rcases h with h | h | ⟨p, hp, hle⟩
    · exact h (h1.imp (fun hlt => Int.le_of_lt hlt))
    · exact h (h1.imp (fun hlt => Int.ne_of_lt hlt))
    · have := (h2 p hp).2
      omega

/-- C15, at `[10,20,30,40,50]`: the lists `[3,1]` (not sorted), `[1,1]` (a duplicate)
and `[1,5]` (a position beyond the end) all make the compaction panic. -/
theorem compactBatched_invalid_witness :
    compactBatched [10, 20, 30, 40, 50] [3, 1] = none ∧
    compactBatched [10, 20, 30, 40, 50] [1, 1] = none ∧
    compactBatched [10, 20, 30, 40, 50] [1, 5] = none :=
  ⟨compactBatched_invalid [10, 20, 30, 40, 50] [3, 1] (Or.inl (by decide)),
   compactBatched_invalid [10, 20, 30, 40, 50] [1, 1] (Or.inr (Or.inl (by decide))),
   compactBatched_invalid [10, 20, 30, 40, 50] [1, 5] (Or.inr (Or.inr ⟨5, by decide, by decide⟩))⟩

/-! ## The batched compaction: read and write cursors -/

/-- A front-to-back copy towards lower indexes is the overlap-safe copy. -/
theorem copyFwd_eq_copyAt {α : Type} (n : Nat) :
    ∀ (s : List α) (w r : Nat), w ≤ r → r + n ≤ s.length →
      copyFwd s w r n = copyAt s w (slice s r (r + n)) := by
  induction n with
  | zero =>
    intro s w r _ h
    have hs : slice s r (r + 0) = [] := by simp [slice]
    rw [copyFwd, hs, copyAt_eq s w [] (by simp; omega)]
    simp
  | succ n ih =>
    intro s w r hwr h
    have hr : r < s.length := by omega
    have hw : w < s.length := by omega
    have hsl : (slice s r (r + (n + 1))).length = n + 1 := by
      rw [length_slice s r _ (by omega)]; omega
    have hsl1 : (slice (s.set w s[r]) (r + 1) (r + 1 + n)).length = n := by
      rw [length_slice _ _ _ (by rw [List.length_set]; omega)]; omega
    rw [copyFwd, List.getElem?_eq_getElem hr]
    simp only
    rw [ih (s.set w s[r]) (w + 1) (r + 1) (by omega) (by rw [List.length_set]; omega),
      copyAt_eq _ _ _ (by rw [hsl1, List.length_set]; omega),
      copyAt_eq _ _ _ (by rw [hsl]; omega), hsl, hsl1]
    have e1 : (s.set w s[r]).take (w + 1) = s.take w ++ [s[r]] := by
      rw [List.set_eq_take_cons_drop _ hw, List.take_append_eq_append_take]
      simp [List.length_take, Nat.min_eq_left (Nat.le_of_lt hw)]
    have e2 : slice (s.set w s[r]) (r + 1) (r + 1 + n) = slice s (r + 1) (r + 1 + n) := by
      unfold slice
      rw [List.drop_set_of_lt _ _ (by omega)]
    have e3 : (s.set w s[r]).drop (w + 1 + n) = s.drop (w + (n + 1)) := by
      rw [List.drop_set_of_lt _ _ (by omega)]
      congr 1; omega
    have e4 : slice s r (r + (n + 1)) = s[r] :: slice s (r + 1) (r + 1 + n) := by
      unfold slice
      rw [List.drop_eq_getElem_cons hr]
      have : r + (n + 1) - r = (r + 1 + n - (r + 1)) + 1 := by omega
      rw [this, List.take_succ_cons]
    rw [e1, e2, e3, e4]
    simp

theorem copyWithinFwd_eq {α : Type} (s : List α) (w lo hi : Int) (h : w ≤ lo) :
    copyWithinFwd s w lo hi = copyWithin s w lo hi := by
  unfold copyWithinFwd copyWithin
  by_cases hb : 0 ≤ w ∧ w ≤ s.length ∧ 0 ≤ lo ∧ lo ≤ hi ∧ hi ≤ s.length
  · rw [if_pos hb, if_pos hb]
    have hm : min (hi - lo).toNat (s.length - w.toNat) = (hi - lo).toNat := by omega
    rw [hm, copyFwd_eq_copyAt _ s w.toNat lo.toNat (by omega) (by omega)]
    have e : lo.toNat + (hi - lo).toNat = hi.toNat := by omega
    rw [e]
  · rw [if_neg hb, if_neg hb]

theorem compactLoopFwd_eq {α : Type} (d : List Int) :
    ∀ (s : List α) (prev : Int) (z : Nat),
      compactLoopFwd s prev z d = compactLoop s prev z d := by
  induction d with
  | nil => intro s prev z; rfl
  | cons p d ih =>
    intro s prev z
    rw [compactLoopFwd, compactLoop, copyWithinFwd_eq s 0 0 p (le_refl _),
      copyWithinFwd_eq s (prev - z) prev p (by omega)]
    cases (if prev = 0 then copyWithin s 0 0 p else copyWithin s (prev - z) prev p) with
    | none => rfl
    | some s1 => exact ih s1 (p + 1) (z + 1)

/-- The batched compaction with element-by-element copies is the batched compaction. -/
theorem compactBatchedFwd_eq {α : Type} (a : List α) (d : List Int) :
    compactBatchedFwd a d = compactBatched a d := by
  unfold compactBatchedFwd compactBatched
  simp only [compactLoopFwd_eq]
  cases compactLoop a 0 0 d with
  | none => rfl
  | some sp =>
    obtain ⟨s, prev⟩ := sp
    simp only
    rw [copyWithinFwd_eq s _ prev _ (by omega)]

/-- Every copy starts reading at or after the index at which it starts writing, and
the distance between the two is the ordinal of the copy. -/
theorem compactCursors_gap (ps : List Nat) :
    ∀ (prev z : Nat), z ≤ prev → (prev = 0 → z = 0) →
      ps.Pairwise (· < ·) → (∀ p ∈ ps, prev ≤ p) →
      (compactCursors (prev : Int) z (ps.map Int.ofNat)).length = ps.length + 1 ∧
      ∀ j (hj : j < (compactCursors (prev : Int) z (ps.map Int.ofNat)).length),
        0 ≤ ((compactCursors (prev : Int) z (ps.map Int.ofNat))[j]).1 ∧
        ((compactCursors (prev : Int) z (ps.map Int.ofNat))[j]).2
          - ((compactCursors (prev : Int) z (ps.map Int.ofNat))[j]).1 = ((z + j : Nat) : Int) := by
  induction ps with
  | nil =>
    intro prev z hz _ _ _
    refine ⟨rfl, ?_⟩
    intro j hj
    simp only [List.map_nil, compactCursors, List.length_singleton] at hj
    obtain rfl : j = 0 := by omega
    simp only [List.map_nil, compactCursors, List.getElem_cons_zero]
    omega
  | cons p ps ih =>
    intro prev z hz h0 hpw hge
    have hp := hge p (List.mem_cons_self _ _)
    have e : (Int.ofNat p + 1) = ((p + 1 : Nat) : Int) := by simp
    obtain ⟨i1, i2⟩ := ih (p + 1) (z + 1) (by omega) (by omega) (List.Pairwise.of_cons hpw)
      (fun q hq => by have := List.rel_of_pairwise_cons hpw hq; omega)
    simp only [List.map_cons, compactCursors, e]
    refine ⟨by simp only [List.length_cons, i1], ?_⟩
    intro j hj
    match j, hj with
    | 0, _ =>
      simp only [List.getElem_cons_zero]
      by_cases hp0 : prev = 0
      · have := h0 hp0
        subst hp0; subst this
        simp
      · rw [if_neg (by omega)]
        simp only
        omega
    | j + 1, hj =>
      simp only [List.getElem_cons_succ]
      have := i2 j (by simpa using hj)
      refine ⟨this.1, ?_⟩
      rw [this.2]
      omega

/-- The copies of the batched compaction are the copies that start at the indexes of
`compactCursors` and read up to the deleted position, the final one up to `hf`. -/
theorem runCopies_compactCursors {α : Type} (d : List Int) (hf : Int) :
    ∀ (s : List α) (prev : Int) (z : Nat),
      runCopies s (compactCursors prev z d) (d ++ [hf])
        = match compactLoop s prev z d with
          | none => none
          | some (s', prev') => copyWithin s' (prev' - ((z + d.length : Nat) : Int)) prev' hf := by
  induction d with
  | nil =>
    intro s prev z
    simp only [compactCursors, List.nil_append, runCopies, compactLoop, List.length_nil,
      Nat.add_zero]
    cases copyWithin s (prev - z) prev hf <;> rfl
  | cons p d ih =>
    intro s prev z
    have e : ((z + (p :: d).length : Nat) : Int) = ((z + 1 + d.length : Nat) : Int) := by
      simp only [List.length_cons]; omega
    simp only [compactCursors, List.cons_append, runCopies, compactLoop, e]
    by_cases h0 : prev = 0
    · simp only [h0, if_true]
      cases copyWithin s 0 0 p with
      | none => rfl
      | some s1 => exact ih s1 (p + 1) (z + 1)
    · simp only [h0, if_false]
      cases copyWithin s (prev - z) prev p with
      | none => rfl
      | some s1 => exact ih s1 (p + 1) (z + 1)

/-- C18. On a strictly ascending list of positions of the array, the copy with ordinal
`z` (the final copy has ordinal `len(d)`) writes from an index that is not negative and
reads from the index `z` places further: the read index is never before the write index
and the distance grows by one with every removal.  The compaction is the sequence of
these copies followed by the truncation, and the compaction in which every copy is an
element-by-element loop from front to back returns the same array. -/
theorem compactBatched_cursors {α : Type} (a : List α) (d : List Nat)
    (hs : d.Pairwise (· < ·)) (hr : ∀ p ∈ d, p < a.length) :
    (compactCursors 0 0 (d.map Int.ofNat)).length = d.length + 1 ∧
    (∀ z (hz : z < (compactCursors 0 0 (d.map Int.ofNat)).length),
      0 ≤ ((compactCursors 0 0 (d.map Int.ofNat))[z]).1 ∧
      ((compactCursors 0 0 (d.map Int.ofNat))[z]).1 ≤ ((compactCursors 0 0 (d.map Int.ofNat))[z]).2 ∧
      ((compactCursors 0 0 (d.map Int.ofNat))[z]).2
        - ((compactCursors 0 0 (d.map Int.ofNat))[z]).1 = (z : Int)) ∧
    (∃ r s : List α,
      runCopies a (compactCursors 0 0 (d.map Int.ofNat)) (d.map Int.ofNat ++ [(a.length : Int)])
        = some s ∧
      r = s.take (a.length - d.length) ∧
      compactBatched a (d.map Int.ofNat) = some r ∧
      compactBatchedFwd a (d.map Int.ofNat) = some r) := by
  obtain ⟨h1, h2⟩ := compactCursors_gap d 0 0 (le_refl _) (fun _ => rfl) hs
    (fun p _ => Nat.zero_le p)
  simp only [Nat.cast_zero, Nat.zero_add] at h1 h2
  refine ⟨h1, ?_, ?_⟩
  · intro z hz
    have := h2 z hz
    refine ⟨this.1, ?_, this.2⟩
    have h3 := this.2
    omega
  · have hb := (compactBatched_eq_keepRuns a d hs hr).1
    have hrun := runCopies_compactCursors (d.map Int.ofNat) (a.length : Int) a 0 0
    unfold compactBatched at hb
    simp only at hb
    cases hloop : compactLoop a 0 0 (d.map Int.ofNat) with
    | none => rw [hloop] at hb; cases hb
    | some sp =>
      obtain ⟨s1, prev⟩ := sp
      obtain ⟨_, _, _, hlen⟩ := compactLoop_some _ a s1 0 prev 0 hloop
      rw [hloop] at hb hrun
      simp only [Nat.zero_add, List.length_map] at hb hrun
      rw [hlen] at hb
      cases hcw : copyWithin s1 (prev - (d.length : Int)) prev (a.length : Int) with
      | none => rw [hcw] at hb; cases hb
      | some s2 =>
        rw [hcw] at hb hrun
        simp only at hb
        split at hb
        · rw [Option.some.injEq] at hb
          refine ⟨keepRuns a 0 d, s2, hrun, ?_, (compactBatched_eq_keepRuns a d hs hr).1, ?_⟩
          · rw [← hb]
            congr 1
            omega
          · rw [compactBatchedFwd_eq]
            exact (compactBatched_eq_keepRuns a d hs hr).1
        · cases hb

/-- C18, at `a = [10,20,30,40,50]` and `d = [1,3]`: the copies start at the write and
read indexes `(0,0)`, `(1,2)` and `(2,4)`. -/
theorem compactBatched_cursors_witness :
    compactCursors 0 0 ([1, 3].map Int.ofNat) = [(0, 0), (1, 2), (2, 4)] ∧
    compactBatchedFwd [10, 20, 30, 40, 50] ([1, 3].map Int.ofNat) = some [10, 30, 50] ∧
    (∃ r s : List Nat,
      runCopies [10, 20, 30, 40, 50] (compactCursors 0 0 ([1, 3].map Int.ofNat))
        ([1, 3].map Int.ofNat ++ [(([10, 20, 30, 40, 50] : List Nat).length : Int)]) = some s ∧
      r = s.take (([10, 20, 30, 40, 50] : List Nat).length - ([1, 3] : List Nat).length) ∧
      compactBatched [10, 20, 30, 40, 50] ([1, 3].map Int.ofNat) = some r ∧
      compactBatchedFwd [10, 20, 30, 40, 50] ([1, 3].map Int.ofNat) = some r) :=
  ⟨by decide, by decide,
    (compactBatched_cursors [10, 20, 30, 40, 50] [1, 3] (by decide) (by decide)).2.2⟩

/-! ## `DedupeBlock`: which indexes are on the skip lists -/

/-- The map sends an outpoint to `k` exactly when `k` is the last non-coinbase input
that spends it. -/
theorem blockInmap_eq_some_iff (blk : List Tx) (op : OutPoint) (k : Nat) :
    blockInmap blk op = some k ↔
      coinbaseInCount blk ≤ k ∧ spentAt blk k = some op ∧
        ∀ k', k < k' → spentAt blk k' ≠ some op := by
  constructor
  · exact blockInmap_some blk op k
  · rintro ⟨h1, h2, h3⟩
    cases hm : blockInmap blk op with
    | none => exact absurd h2 (blockInmap_none blk op hm k h1)
    | some k0 =>
      obtain ⟨g1, g2, g3⟩ := blockInmap_some blk op k0 hm
      have : k0 = k := by
        rcases Nat.lt_trichotomy k0 k with h | h | h
        · exact absurd h2 (g3 k h)
        · exact h
        · exact absurd g2 (h3 k0 h)
      rw [this]

theorem mem_inskip_iff (blk : List Tx)
    (hin : (blockInputs blk).length < 2 ^ 32) (hout : (blockOutpoints blk).length < 2 ^ 32)
    (k : Nat) :
    k ∈ (DedupeBlock blk).inskip ↔ ∃ o, (k, o) ∈ blockHits blk := by
  rw [DedupeBlock_eq blk hin hout]
  simp only
  rw [(perm_sortUint32s _).mem_iff, List.mem_map]
  constructor
  · rintro ⟨⟨x, y⟩, hmem, rfl⟩
    exact ⟨y, hmem⟩
  · rintro ⟨o, hmem⟩
    exact ⟨(k, o), hmem, rfl⟩

theorem mem_outskip_iff (blk : List Tx)
    (hin : (blockInputs blk).length < 2 ^ 32) (hout : (blockOutpoints blk).length < 2 ^ 32)
    (o : Nat) :
    o ∈ (DedupeBlock blk).outskip ↔ ∃ k, (k, o) ∈ blockHits blk := by
  rw [DedupeBlock_eq blk hin hout]
  simp only
  rw [List.mem_map]
  constructor
  · rintro ⟨⟨x, y⟩, hmem, rfl⟩
    exact ⟨x, hmem⟩
  · rintro ⟨k, hmem⟩
    exact ⟨(k, o), hmem, rfl⟩

/-- A hit pairs a non-coinbase output with the last non-coinbase input that spends it. -/
theorem blockHits_spec (blk : List Tx) (k o : Nat) (h : (k, o) ∈ blockHits blk) :
    coinbaseInCount blk ≤ k ∧ coinbaseOutCount blk ≤ o ∧
      (createdAt blk o).isSome = true ∧ createdAt blk o = spentAt blk k := by
  obtain ⟨h1, op, hc, hm⟩ := (mem_blockHits blk k o).mp h
  obtain ⟨g1, g2, _⟩ := blockInmap_some blk op k hm
  exact ⟨g1, h1, by rw [hc]; rfl, by rw [hc, g2]⟩

/-- C17. For a block within the range of the `uint32` counters, every index in `inskip`
is that of a non-coinbase input whose `PreviousOutPoint` is the outpoint of a
non-coinbase output whose index is in `outskip`, and every index in `outskip` is that
of a non-coinbase output whose outpoint is the `PreviousOutPoint` of a non-coinbase
input whose index is in `inskip`; no index of a coinbase input or output is in either
list. -/
theorem DedupeBlock_skip_lists (blk : List Tx)
    (hin : (blockInputs blk).length < 2 ^ 32) (hout : (blockOutpoints blk).length < 2 ^ 32) :
    (∀ k ∈ (DedupeBlock blk).inskip,
      coinbaseInCount blk ≤ k ∧ k < (blockInputs blk).length ∧
      ∃ o ∈ (DedupeBlock blk).outskip, coinbaseOutCount blk ≤ o ∧
        (createdAt blk o).isSome = true ∧ createdAt blk o = spentAt blk k) ∧
    (∀ o ∈ (DedupeBlock blk).outskip,
      coinbaseOutCount blk ≤ o ∧ o < (blockOutpoints blk).length ∧
      ∃ k ∈ (DedupeBlock blk).inskip, coinbaseInCount blk ≤ k ∧
        (createdAt blk o).isSome = true ∧ createdAt blk o = spentAt blk k) := by
  constructor
  · intro k hk
    obtain ⟨o, hmem⟩ := (mem_inskip_iff blk hin hout k).mp hk
    obtain ⟨h1, h2, h3, h4⟩ := blockHits_spec blk k o hmem
    exact ⟨h1, (mem_inskip blk hin hout k hk).2,
      o, (mem_outskip_iff blk hin hout o).mpr ⟨k, hmem⟩, h2, h3, h4⟩
  · intro o ho
    obtain ⟨k, hmem⟩ := (mem_outskip_iff blk hin hout o).mp ho
    obtain ⟨h1, h2, h3, h4⟩ := blockHits_spec blk k o hmem
    refine ⟨h2, ?_, k, (mem_inskip_iff blk hin hout k).mpr ⟨o, hmem⟩, h1, h3, h4⟩
    unfold createdAt at h3
    by_contra hlt
    rw [List.getElem?_eq_none (by omega)] at h3
    cases h3

/-- C17, at `exBlock`: `inskip = [2, 3]` and `outskip = [1, 2]`, after one coinbase
input and one coinbase output. -/
theorem DedupeBlock_skip_lists_witness :
    (DedupeBlock exBlock).inskip = [2, 3] ∧ (DedupeBlock exBlock).outskip = [1, 2] ∧
    coinbaseInCount exBlock = 1 ∧ coinbaseOutCount exBlock = 1 ∧
    (∀ k ∈ (DedupeBlock exBlock).inskip,
      coinbaseInCount exBlock ≤ k ∧ k < (blockInputs exBlock).length ∧
      ∃ o ∈ (DedupeBlock exBlock).outskip, coinbaseOutCount exBlock ≤ o ∧
        (createdAt exBlock o).isSome = true ∧ createdAt exBlock o = spentAt exBlock k) :=
  ⟨by decide, by decide, by decide, by decide,
    (DedupeBlock_skip_lists exBlock (by decide) (by decide)).1⟩

/-- C16 (amended). For a block within the range of the `uint32` counters: when the
outpoint of a non-coinbase output is the `PreviousOutPoint` of two non-coinbase inputs,
with flattened indexes `k1 < k2`, and of no input after `k2`, then `inskip` contains
`k2`, the index of the later input, and not `k1`: the map keeps the last input that
registers an outpoint. -/
theorem DedupeBlock_last_input (blk : List Tx)
    (hin : (blockInputs blk).length < 2 ^ 32) (hout : (blockOutpoints blk).length < 2 ^ 32)
    (o k1 k2 : Nat) (op : OutPoint)
    (ho : coinbaseOutCount blk ≤ o) (hop : createdAt blk o = some op)
    (hk1 : coinbaseInCount blk ≤ k1) (hlt : k1 < k2)
    (hs1 : spentAt blk k1 = some op) (hs2 : spentAt blk k2 = some op)
    (hlast : ∀ k', k2 < k' → spentAt blk k' ≠ some op) :
    k2 ∈ (DedupeBlock blk).inskip ∧ k1 ∉ (DedupeBlock blk).inskip ∧
      o ∈ (DedupeBlock blk).outskip := by
  have hm : blockInmap blk op = some k2 :=
    (blockInmap_eq_some_iff blk op k2).mpr ⟨by omega, hs2, hlast⟩
  have hhit : (k2, o) ∈ blockHits blk := (mem_blockHits blk k2 o).mpr ⟨ho, op, hop, hm⟩
  refine ⟨(mem_inskip_iff blk hin hout k2).mpr ⟨o, hhit⟩, ?_,
    (mem_outskip_iff blk hin hout o).mpr ⟨k2, hhit⟩⟩
  intro hk
  obtain ⟨o', hmem⟩ := (mem_inskip_iff blk hin hout k1).mp hk
  obtain ⟨_, op', _, hm'⟩ := (mem_blockHits blk k1 o').mp hmem
  obtain ⟨_, g2, g3⟩ := blockInmap_some blk op' k1 hm'
  rw [hs1, Option.some.injEq] at g2
  subst g2
  exact g3 k2 hlt hs2

/-- C16, the claim as stated fails: in `exBlockSpentTwice` the inputs 2 and 3 both
spend output 0 of `exTxA`, and `inskip` is `[3]`: it contains the index of the later
input and not that of the earlier one. -/
theorem DedupeBlock_last_input_counterexample :
    spentAt exBlockSpentTwice 2 = some ⟨hash32 2, 0⟩ ∧
    spentAt exBlockSpentTwice 3 = some ⟨hash32 2, 0⟩ ∧
    createdAt exBlockSpentTwice 1 = some ⟨hash32 2, 0⟩ ∧
    (DedupeBlock exBlockSpentTwice).inskip = [3] ∧
    ¬ (2 ∈ (DedupeBlock exBlockSpentTwice).inskip ∧
        3 ∉ (DedupeBlock exBlockSpentTwice).inskip) := by
  decide

/-- C16 (amended), at `exBlockSpentTwice`. -/
theorem DedupeBlock_last_input_witness :
    3 ∈ (DedupeBlock exBlockSpentTwice).inskip ∧ 2 ∉ (DedupeBlock exBlockSpentTwice).inskip ∧
      1 ∈ (DedupeBlock exBlockSpentTwice).outskip := by
  refine DedupeBlock_last_input exBlockSpentTwice (by decide) (by decide) 1 2 3 ⟨hash32 2, 0⟩
    (by decide) (by decide) (by decide) (by decide) (by decide) (by decide) ?_
  intro k' h1 h2
  have h3 := spentAt_lt _ _ _ h2
  have h4 : (blockInputs exBlockSpentTwice).length = 4 := by decide
  omega

/-! ## `BlockToDelOPs`: length and content of the result -/

theorem length_filter_not_mem (ins : List TxIn) :
    ∀ (c : Nat) (sk : List Nat), sk.Pairwise (· < ·) →
      (∀ s ∈ sk, c ≤ s ∧ s < c + ins.length) →
      ((ins.enumFrom c).filter (fun p => decide (p.1 ∉ sk))).length + sk.length
        = ins.length := by
  induction ins with
  | nil =>
    intro c sk _ hr
    cases sk with
    | nil => rfl
    | cons s sk =>
      have := hr s (List.mem_cons_self _ _)
      simp only [List.length_nil] at this
      omega
  | cons x ins ih =>
    intro c sk hpw hr
    cases sk with
    | nil =>
      have := ih (c + 1) [] List.Pairwise.nil (by simp)
      simp only [List.not_mem_nil, not_false_eq_true, decide_True, List.length_nil,
        List.length_cons, List.enumFrom_cons, List.filter_cons_of_pos] at this ⊢
      omega
    | cons s sk =>
      have hs := hr s (List.mem_cons_self _ _)
      have hgt : ∀ t ∈ sk, s < t := fun t ht => List.rel_of_pairwise_cons hpw ht
      simp only [List.length_cons] at hs
      by_cases he : s = c
      · subst he
        have hrec := ih (s + 1) sk (List.Pairwise.of_cons hpw) (fun t ht => by
          have h1 := hgt t ht
          have h2 := hr t (List.mem_cons_of_mem _ ht)
          simp only [List.length_cons] at h2
          omega)
        rw [List.enumFrom_cons, List.filter_cons_of_neg (by simp)]
        have hc : (ins.enumFrom (s + 1)).filter (fun p => decide (p.1 ∉ s :: sk))
            = (ins.enumFrom (s + 1)).filter (fun p => decide (p.1 ∉ sk)) := by
          apply List.filter_congr
          intro p hp
          have := List.le_fst_of_mem_enumFrom hp
          have hne : p.1 ≠ s := by omega
          simp [hne]
        rw [hc]
        simp only [List.length_cons]
        omega
      · have hrec := ih (c + 1) (s :: sk) hpw (fun t ht => by
          have h2 := hr t ht
          simp only [List.length_cons] at h2
          rcases List.mem_cons.mp ht with h | h
          · subst h; omega
          · have := hgt t h; omega)
        have hnot : c ∉ s :: sk := by
          intro hmem
          rcases List.mem_cons.mp hmem with h | h
          · exact he h.symm
          · have := hgt c h; omega
        rw [List.enumFrom_cons, List.filter_cons_of_pos (by simpa using hnot)]
        simp only [List.length_cons] at hrec ⊢
        omega

/-- C13 (amended). For a block within the range of the `uint32` counters in which no
two non-coinbase outputs have the same outpoint, `BlockToDelOPs` returns a list of
`inCount - c - len(inskip)` outpoints, where `inCount` and `inskip` are results of
`DedupeBlock` and `c` is the number of inputs of the coinbase. -/
theorem BlockToDelOPs_length (blk : List Tx)
    (hin : (blockInputs blk).length < 2 ^ 32) (hout : (blockOutpoints blk).length < 2 ^ 32)
    (hnd : (blockOutpoints blk.tail).Nodup) :
    ∃ r : List OutPoint, BlockToDelOPs blk = some r ∧
      (r.length : Int)
        = ((DedupeBlock blk).inCount : Int) - (coinbaseInCount blk : Int)
          - ((DedupeBlock blk).inskip.length : Int) := by
  refine ⟨_, blockToDelOPs_eq_enumFrom blk hin hout hnd, ?_⟩
  have hpw : (DedupeBlock blk).inskip.Pairwise (· < ·) := inskip_pairwise_lt blk hin hout hnd
  have hmem := mem_inskip blk hin hout
  obtain ⟨h1, h2⟩ := blockInputs_split blk
  have hlen : (blockInputs blk).length = coinbaseInCount blk + (blockInputs blk.tail).length := by
    rw [h1, List.length_append, h2]
  have hc : (DedupeBlock blk).inCount = (blockInputs blk).length := by
    rw [DedupeBlock_eq blk hin hout]
  have := length_filter_not_mem (blockInputs blk.tail) (coinbaseInCount blk)
    (DedupeBlock blk).inskip hpw (fun s hs => by have := hmem s hs; omega)
  rw [List.length_map, hc]
  omega

/-- C13, the claim as stated fails: for `exBlockDup`, `inCount = 5`, the coinbase has
1 input and `inskip` has 4 entries, but `BlockToDelOPs` returns 3 outpoints. -/
theorem BlockToDelOPs_length_counterexample :
    (DedupeBlock exBlockDup).inCount = 5 ∧ coinbaseInCount exBlockDup = 1 ∧
    (DedupeBlock exBlockDup).inskip.length = 4 ∧
    (BlockToDelOPs exBlockDup).map List.length = some 3 ∧
    (BlockToDelOPs exBlockDup).map (fun r => (r.length : Int))
      ≠ some (((DedupeBlock exBlockDup).inCount : Int) - (coinbaseInCount exBlockDup : Int)
          - ((DedupeBlock exBlockDup).inskip.length : Int)) := by
  decide

/-- C13 (amended), at `exBlock`: 4 inputs, 1 of the coinbase, 2 skipped, 1 returned. -/
theorem BlockToDelOPs_length_witness :
    (BlockToDelOPs exBlock).map List.length = some 1 ∧
    ∃ r : List OutPoint, BlockToDelOPs exBlock = some r ∧
      (r.length : Int)
        = ((DedupeBlock exBlock).inCount : Int) - (coinbaseInCount exBlock : Int)
          - ((DedupeBlock exBlock).inskip.length : Int) :=
  ⟨by decide, BlockToDelOPs_length exBlock (by decide) (by decide) (by decide)⟩

theorem mem_blockOutpoints_tail (blk : List Tx) (op : OutPoint) :
    op ∈ blockOutpoints blk.tail ↔
      ∃ o, coinbaseOutCount blk ≤ o ∧ createdAt blk o = some op := by
  rw [List.mem_iff_getElem?]
  constructor
  · rintro ⟨j, hj⟩
    exact ⟨coinbaseOutCount blk + j, by omega, by rw [createdAt_tail, hj]⟩
  · rintro ⟨o, ho, hc⟩
    obtain ⟨j, rfl⟩ : ∃ j, o = coinbaseOutCount blk + j := ⟨o - coinbaseOutCount blk, by omega⟩
    rw [createdAt_tail] at hc
    exact ⟨j, hc⟩

/-- C14 (amended). For a block within the range of the `uint32` counters in which no
two non-coinbase outputs have the same outpoint and no outpoint of a non-coinbase
output is spent by two non-coinbase inputs, `BlockToDelOPs` returns, in block input
order, the `PreviousOutPoint`s of the non-coinbase inputs that are not outpoints of
non-coinbase outputs of the block; so no outpoint in its result is `(hash of t, j)` for
a non-coinbase transaction `t` of the block and an output index `j` of `t`. -/
theorem BlockToDelOPs_not_created (blk : List Tx)
    (hin : (blockInputs blk).length < 2 ^ 32) (hout : (blockOutpoints blk).length < 2 ^ 32)
    (hnd : (blockOutpoints blk.tail).Nodup)
    (hsingle : ∀ k1 k2 op, coinbaseInCount blk ≤ k1 → coinbaseInCount blk ≤ k2 →
      spentAt blk k1 = some op → spentAt blk k2 = some op →
      op ∈ blockOutpoints blk.tail → k1 = k2) :
    BlockToDelOPs blk
      = some (((blockInputs blk.tail).map TxIn.PreviousOutPoint).filter
          (fun op => decide (op ∉ blockOutpoints blk.tail))) ∧
    ∀ r, BlockToDelOPs blk = some r → ∀ op ∈ r, op ∉ blockOutpoints blk.tail := by
  have key : BlockToDelOPs blk
      = some (((blockInputs blk.tail).map TxIn.PreviousOutPoint).filter
          (fun op => decide (op ∉ blockOutpoints blk.tail))) := by
    rw [blockToDelOPs_eq_enumFrom blk hin hout hnd]
    congr 1
    have hc : ((blockInputs blk.tail).enumFrom (coinbaseInCount blk)).filter
          (fun p => decide (p.1 ∉ (DedupeBlock blk).inskip))
        = ((blockInputs blk.tail).enumFrom (coinbaseInCount blk)).filter
          ((fun op => decide (op ∉ blockOutpoints blk.tail))
            ∘ (fun p : Nat × TxIn => p.2.PreviousOutPoint)) := by
      apply List.filter_congr
      rintro ⟨k, x⟩ hp
      obtain ⟨hk, hx⟩ := List.mk_mem_enumFrom_iff_le_and_getElem?_sub.mp hp
      obtain ⟨j, rfl⟩ : ∃ j, k = coinbaseInCount blk + j := ⟨k - coinbaseInCount blk, by omega⟩
      rw [Nat.add_sub_cancel_left] at hx
      have hs : spentAt blk (coinbaseInCount blk + j) = some x.PreviousOutPoint := by
        rw [spentAt_tail, hx]; rfl
      have hiff : coinbaseInCount blk + j ∈ (DedupeBlock blk).inskip ↔
          x.PreviousOutPoint ∈ blockOutpoints blk.tail := by
        constructor
        · intro hmem
          obtain ⟨o, hhit⟩ := (mem_inskip_iff blk hin hout _).mp hmem
          obtain ⟨ho, op, hcr, hm⟩ := (mem_blockHits blk _ o).mp hhit
          have g2 := (blockInmap_some blk op _ hm).2.1
          rw [hs, Option.some.injEq] at g2
          rw [g2]
          exact (mem_blockOutpoints_tail blk op).mpr ⟨o, ho, hcr⟩
        · intro hmem
          obtain ⟨o, ho, hcr⟩ := (mem_blockOutpoints_tail blk _).mp hmem
          cases hm : blockInmap blk x.PreviousOutPoint with
          | none => exact absurd hs (blockInmap_none blk _ hm _ (by omega))
          | some k0 =>
            obtain ⟨g1, g2, _⟩ := blockInmap_some blk _ k0 hm
            have : k0 = coinbaseInCount blk + j :=
              hsingle k0 _ _ g1 (by omega) g2 hs hmem
            rw [this] at hm
            exact (mem_inskip_iff blk hin hout _).mpr
              ⟨o, (mem_blockHits blk _ o).mpr ⟨ho, _, hcr, hm⟩⟩
      simp only [Function.comp, decide_eq_decide]
      exact not_congr hiff
    rw [hc, ← List.filter_map]
    have hm : (List.enumFrom (coinbaseInCount blk) (blockInputs blk.tail)).map
          (fun p => p.2.PreviousOutPoint)
        = (blockInputs blk.tail).map TxIn.PreviousOutPoint := by
      conv_rhs => rw [← List.enumFrom_map_snd (coinbaseInCount blk) (blockInputs blk.tail)]
      rw [List.map_map]
      rfl
    rw [hm]
  refine ⟨key, ?_⟩
  intro r hr op hop
  rw [key, Option.some.injEq] at hr
  subst hr
  have := (List.mem_filter.mp hop).2
  simpa using this

/-- C14, the claim as stated fails: in `exBlockSpentTwice` output 0 of `exTxA` is spent
by two inputs; only the later one is on the skip list, and `BlockToDelOPs` returns the
outpoint of output 0 of `exTxA` for the earlier one. -/
theorem BlockToDelOPs_not_created_counterexample :
    BlockToDelOPs exBlockSpentTwice = some [⟨hash32 9, 0⟩, ⟨hash32 2, 0⟩] ∧
    (⟨hash32 2, 0⟩ : OutPoint) ∈ blockOutpoints exBlockSpentTwice.tail ∧
    ¬ (∀ r, BlockToDelOPs exBlockSpentTwice = some r →
        ∀ op ∈ r, op ∉ blockOutpoints exBlockSpentTwice.tail) := by
  refine ⟨by decide, by decide, ?_⟩
  intro h
  exact h [⟨hash32 9, 0⟩, ⟨hash32 2, 0⟩] (by decide) ⟨hash32 2, 0⟩ (by decide) (by decide)

/-- C14 (amended), at `exBlock`. -/
theorem BlockToDelOPs_not_created_witness :
    BlockToDelOPs exBlock = some [⟨hash32 9, 0⟩] ∧
    ∀ r, BlockToDelOPs exBlock = some r → ∀ op ∈ r, op ∉ blockOutpoints exBlock.tail := by
  refine ⟨by decide, (BlockToDelOPs_not_created exBlock (by decide) (by decide) (by decide) ?_).2⟩
  intro k1 k2 op h1 h2 hs1 hs2 _
  have b1 := spentAt_lt _ _ _ hs1
  have b2 := spentAt_lt _ _ _ hs2
  have h4 : (blockInputs exBlock).length = 4 := by decide
  have h5 : coinbaseInCount exBlock = 1 := by decide
  rw [h4] at b1 b2
  rw [h5] at h1 h2
  have e := hs1.trans hs2.symm
  interval_cases k1 <;> interval_cases k2 <;>
    first
      | rfl
      | exact absurd e (by decide)

end Utreexo
